import Mathlib

/-!
MAGMA: sparse ILU/IC utilities and the variable-batched rank-k update.

A shallow embedding of `sparse-iter/control/magma_ziteriluutils.cpp` and
`magmablas/zherk_vbatched.cpp`.

Conventions of the embedding.

* `double` is idealised as an exact linearly ordered field `R` (the theorems hold for
  every such field, the reals included; concrete evaluations use the rationals).
  `sqrt` of the C library is a parameter `sqrt : R → R`.
* `magma_int_t` / `magma_index_t` indices and sizes of the CSR arrays are natural
  numbers; the dimension arrays of the batched routine are integers (they may be
  negative).
* C arrays are lists.  A read outside an array (undefined in C) yields `0`, a write
  outside an array is dropped; a well-formed matrix never causes either.
* A routine that writes through pointer arguments returns a record of the values
  written, next to its status code.  Where the source reads a location before
  writing it (an output argument, a local that no branch assigns) the content of
  that location at entry is an explicit argument of the model.
-/

set_option linter.unusedSectionVars false

namespace Magma

/-! ## Loops -/

/-- The loop `for (j = a; j < b; j++) s = body(j, s);`. -/
def forLoop {σ : Type} (a b : Nat) (body : Nat → σ → σ) (s : σ) : σ :=
  (List.range' a (b - a)).foldl (fun s j => body j s) s

/-! ## Data model -/

/-- The type `magmaDoubleComplex`: a pair of doubles. -/
structure magmaDoubleComplex (R : Type) where
  re : R
  im : R
deriving DecidableEq, Repr

/-- The CSR part of `magma_z_matrix`: sizes, row offsets, column indices, values. -/
structure magma_z_matrix (R : Type) where
  num_rows : Nat
  nnz : Nat
  row : List Nat
  col : List Nat
  val : List (magmaDoubleComplex R)
deriving DecidableEq, Repr

/-- The status code `MAGMA_SUCCESS`. -/
def MAGMA_SUCCESS : Int := 0

section Sparse

variable {R : Type} [LinearOrderedField R]

/-- The constructor `MAGMA_Z_MAKE(r, i)`. -/
def MAGMA_Z_MAKE (r i : R) : magmaDoubleComplex R := ⟨r, i⟩

/-- The accessor `MAGMA_Z_REAL(z)`. -/
def MAGMA_Z_REAL (z : magmaDoubleComplex R) : R := z.re

/-- Read `xs[j]` of an index array. -/
def rdI (xs : List Nat) (j : Nat) : Nat := xs.getD j 0

/-- Read `xs[j]` of a value array. -/
def rdV (xs : List (magmaDoubleComplex R)) (j : Nat) : magmaDoubleComplex R :=
  xs.getD j (MAGMA_Z_MAKE 0 0)

/-- The data model's invariant of a CSR matrix: `num_rows + 1` row offsets, first `0`,
last `nnz`, non-decreasing; `nnz` column indices and `nnz` values. -/
def WellFormed (A : magma_z_matrix R) : Prop :=
  A.row.length = A.num_rows + 1 ∧ rdI A.row 0 = 0 ∧ rdI A.row A.num_rows = A.nnz ∧
  (∀ i, i < A.num_rows → rdI A.row i ≤ rdI A.row (i + 1)) ∧
  A.col.length = A.nnz ∧ A.val.length = A.nnz

instance (A : magma_z_matrix R) : Decidable (WellFormed A) := by
  unfold WellFormed; infer_instance

/-- Position `j` lies in row `i` of `A`: `A.row[i] <= j < A.row[i+1]`. -/
def InRow (A : magma_z_matrix R) (i j : Nat) : Prop :=
  rdI A.row i ≤ j ∧ j < rdI A.row (i + 1)

instance (A : magma_z_matrix R) (i j : Nat) : Decidable (InRow A i j) := by
  unfold InRow; infer_instance

/-- The entries (column index, value) of row `i` of `A`, in storage order. -/
def rowEntries (A : magma_z_matrix R) (i : Nat) : List (Nat × magmaDoubleComplex R) :=
  (List.range' (rdI A.row i) (rdI A.row (i + 1) - rdI A.row i)).map
    (fun j => (rdI A.col j, rdV A.val j))

/-! ## `magma_zfrobenius` -/

/-- What `magma_zfrobenius` returns: the status code and `*res`. -/
structure FrobeniusResult (R : Type) where
  info : Int
  res : R

/-- The three nested loops of `magma_zfrobenius`, which add to `*res`. -/
def magma_zfrobenius_scan (A B : magma_z_matrix R) (res : R) : R :=
  forLoop 0 A.num_rows (fun i res =>
    forLoop (rdI A.row i) (rdI A.row (i + 1)) (fun j res =>
      let localcol := rdI A.col j
      forLoop (rdI B.row i) (rdI B.row (i + 1)) (fun k res =>
        if rdI B.col k = localcol then
          let tmp2 := |MAGMA_Z_REAL (rdV A.val j) - MAGMA_Z_REAL (rdV B.val k)|
          res + tmp2 * tmp2
        else res) res) res) res

/-- The routine `magma_zfrobenius(A, B, res, queue)`: `*res = 0.0`, the loops, the
square root. -/
def magma_zfrobenius (sqrt : R → R) (A B : magma_z_matrix R) : FrobeniusResult R :=
  let res := 0
  let res := magma_zfrobenius_scan A B res
  { info := MAGMA_SUCCESS, res := sqrt res }

/-- A 1x2 CSR matrix whose only row stores column 0 twice, with values 1 and 2. -/
def dupRow (R : Type) [LinearOrderedField R] : magma_z_matrix R :=
  { num_rows := 1, nnz := 2, row := [0, 2], col := [0, 0],
    val := [MAGMA_Z_MAKE 1 0, MAGMA_Z_MAKE 2 0] }

/-- The 3x3 identity in CSR. -/
def identity3 (R : Type) [LinearOrderedField R] : magma_z_matrix R :=
  { num_rows := 3, nnz := 3, row := [0, 1, 2, 3], col := [0, 1, 2],
    val := [MAGMA_Z_MAKE 1 0, MAGMA_Z_MAKE 1 0, MAGMA_Z_MAKE 1 0] }

/-! ## Collaborators that are not among the sources -/

/-- The `diagorder_type` tags the sources set before a conversion. -/
inductive magma_diagorder_t where
  | Magma_UNITY
  | Magma_VALUE
deriving DecidableEq, Repr

/-- Complex addition. -/
def MAGMA_Z_ADD (a b : magmaDoubleComplex R) : magmaDoubleComplex R :=
  MAGMA_Z_MAKE (a.re + b.re) (a.im + b.im)

/-- Complex multiplication. -/
def MAGMA_Z_MUL (a b : magmaDoubleComplex R) : magmaDoubleComplex R :=
  MAGMA_Z_MAKE (a.re * b.re - a.im * b.im) (a.re * b.im + a.im * b.re)

/-- The row offsets of rows stored one after the other: offset `i` is the number of
entries of the rows before row `i`. -/
def rowOffsets {α : Type} (rows : List (List α)) : List Nat :=
  (List.range (rows.length + 1)).map (fun i => (rows.take i).flatten.length)

/-- The CSR matrix that stores the given rows of (column index, value) entries. -/
def csrOfRows (rows : List (List (Nat × magmaDoubleComplex R))) : magma_z_matrix R :=
  { num_rows := rows.length, nnz := rows.flatten.length, row := rowOffsets rows,
    col := rows.flatten.map Prod.fst, val := rows.flatten.map Prod.snd }

/-- Modelled from the spec: `magma_zmtransfer` is not among the sources.  A transfer
(host to device, device to host, host to host) "produces a new matrix with copied
data": the copy has the arrays of the original. -/
def magma_zmtransfer (A : magma_z_matrix R) : magma_z_matrix R := A

/-- Modelled from the spec: `magma_zmfree` ("resource release") is not among the
sources.  A released matrix holds no rows and no entries. -/
def magma_zmfree (_A : magma_z_matrix R) : magma_z_matrix R :=
  { num_rows := 0, nnz := 0, row := [], col := [], val := [] }

/-- One entry of the lower triangular extraction of row `i`: entries left of the
diagonal are kept, a diagonal entry is kept with its value (`Magma_VALUE`) or with
value one (`Magma_UNITY`), entries right of the diagonal are dropped. -/
def lowerEntry (diag : magma_diagorder_t) (i : Nat) (e : Nat × magmaDoubleComplex R) :
    Option (Nat × magmaDoubleComplex R) :=
  if e.1 < i then some e
  else if e.1 = i then
    match diag with
    | .Magma_UNITY => some (e.1, MAGMA_Z_MAKE 1 0)
    | .Magma_VALUE => some e
  else none

/-- Modelled from the spec: `magma_zmconvert` is not among the sources.  The call
`magma_zmconvert(A, &B, Magma_CSR, Magma_CSRL, queue)` with `B.diagorder_type = diag`
is the "triangular extraction, with or without explicit unit diagonal": row by row,
in storage order, the entries of `A` on or left of the diagonal, the diagonal
entries carrying the value one when `diag` is `Magma_UNITY`. -/
def magma_zmconvert_CSR_CSRL (diag : magma_diagorder_t) (A : magma_z_matrix R) :
    magma_z_matrix R :=
  csrOfRows ((List.range A.num_rows).map
    (fun i => (rowEntries A i).filterMap (lowerEntry diag i)))

/-- Modelled from the spec: the conversion `Magma_CSR` to `Magma_CSRCOO` of
`magma_zmconvert` (not among the sources) yields the "coordinate-augmented CSR
form": the CSR arrays stay as they are (a row-index array is added next to them). -/
def magma_zmconvert_CSR_CSRCOO (A : magma_z_matrix R) : magma_z_matrix R := A

/-- Add `v` to the entry of column `c` of an accumulated row, appending a new entry
when the row has none in that column. -/
def spmm_accum (acc : List (Nat × magmaDoubleComplex R)) (c : Nat)
    (v : magmaDoubleComplex R) : List (Nat × magmaDoubleComplex R) :=
  match acc with
  | [] => [(c, v)]
  | e :: rest =>
    if e.1 = c then (e.1, MAGMA_Z_ADD e.2 v) :: rest else e :: spmm_accum rest c v

/-- Row `i` of `alpha * A * B`: every entry `(k, a)` of row `i` of `A` adds
`alpha * a * b` at column `c` for every entry `(c, b)` of row `k` of `B`. -/
def spmm_row (alpha : magmaDoubleComplex R) (A B : magma_z_matrix R) (i : Nat) :
    List (Nat × magmaDoubleComplex R) :=
  (rowEntries A i).foldl (fun acc e =>
    (rowEntries B e.1).foldl (fun acc f =>
      spmm_accum acc f.1 (MAGMA_Z_MUL (MAGMA_Z_MUL alpha e.2) f.2)) acc) []

/-- Modelled from the spec: `magma_z_spmm` is not among the sources.  It is the
"sparse matrix-matrix product (`C := alpha * A * B` over CSR operands, producing a
new CSR result with its own pattern)": the result has the rows of `A`, and row `i`
stores one entry for every column reached through row `i` of `A`. -/
def magma_z_spmm (alpha : magmaDoubleComplex R) (A B : magma_z_matrix R) :
    magma_z_matrix R :=
  csrOfRows ((List.range A.num_rows).map (spmm_row alpha A B))

/-- Modelled from the spec: `magma_zmgenerator` is not among the sources.  The call
`magma_zmgenerator(n, 0, diag_offset, diag_vals, &hD, queue)` with a single
diagonal at offset `0` builds the `n` by `n` diagonal matrix with `v = diag_vals[0]`
in every diagonal position. -/
def magma_zmgenerator (n : Nat) (v : magmaDoubleComplex R) : magma_z_matrix R :=
  { num_rows := n, nnz := n, row := List.range (n + 1), col := List.range n,
    val := List.replicate n v }

/-! ## `magma_znonlinres` -/

/-- What `magma_znonlinres` returns: the status code, `*LU` and `*res`. -/
structure NonlinresResult (R : Type) where
  info : Int
  LU : magma_z_matrix R
  res : R

/-- The first loop nest of `magma_znonlinres`: the values written to the local copy
`A_t` of `A`, from the product `LU`. -/
def magma_znonlinres_A_t (A LU : magma_z_matrix R) : magma_z_matrix R :=
  let A_t := magma_zmtransfer A
  let val := forLoop 0 A.num_rows (fun i val =>
    forLoop (rdI A.row i) (rdI A.row (i + 1)) (fun j val =>
      let lcol := rdI A.col j
      let newval := forLoop (rdI LU.row i) (rdI LU.row (i + 1)) (fun k newval =>
        if rdI LU.col k = lcol then
          MAGMA_Z_MAKE (MAGMA_Z_REAL (rdV LU.val k) - MAGMA_Z_REAL (rdV A.val j)) 0
        else newval) (MAGMA_Z_MAKE 0 0)
      val.set j newval) val) A_t.val
  { A_t with val := val }

/-- The routine `magma_znonlinres(A, L, U, LU, res, queue)`.  The source adds to
`*res` without assigning it first, so the value of `*res` at entry is the
argument `res`. -/
def magma_znonlinres (sqrt : R → R) (A L U : magma_z_matrix R) (res : R) :
    NonlinresResult R :=
  let L_d := magma_zmtransfer L
  let U_d := magma_zmtransfer U
  let one := MAGMA_Z_MAKE 1 0
  let LU_d := magma_z_spmm one L_d U_d
  let LU := magma_zmtransfer LU_d
  let A_t := magma_znonlinres_A_t A LU
  let res := forLoop 0 A.num_rows (fun i res =>
    forLoop (rdI A.row i) (rdI A.row (i + 1)) (fun j res =>
      let tmp2 := |MAGMA_Z_REAL (rdV A_t.val j)|
      res + tmp2 * tmp2) res) res
  let LU := magma_zmfree LU
  { info := MAGMA_SUCCESS, LU := LU, res := sqrt res }

/-! ## Unit-diagonal normalisation -/

/-- The variables of the loop that inserts the unit diagonal: the write position `z`
and the arrays of `LL`. -/
structure DiagAddState (R : Type) where
  z : Nat
  row : List Nat
  col : List Nat
  val : List (magmaDoubleComplex R)

/-- The message printed when `L.row[1]` is neither `1` nor `0`. -/
def diagadd_error : String := "error: L neither lower nor strictly lower triangular!\n"

/-- The loop `for (i = 0; i < L.num_rows; i++) { LL.row[i] = z; ... }` of
`magma_zilures` and `magma_zmLdiagadd` (the same text in both). -/
def diagadd_loop (L : magma_z_matrix R) (s : DiagAddState R) : DiagAddState R :=
  forLoop 0 L.num_rows (fun i s =>
    let s := { s with row := s.row.set i s.z }
    let s := forLoop (rdI L.row i) (rdI L.row (i + 1)) (fun j s =>
      { s with val := s.val.set s.z (rdV L.val j), col := s.col.set s.z (rdI L.col j),
               z := s.z + 1 }) s
    { s with val := s.val.set s.z (MAGMA_Z_MAKE 1 0), col := s.col.set s.z i,
             z := s.z + 1 }) s

/-- The normalisation step at the head of `magma_zilures`: the matrix `LL` and what
is printed.  No branch assigns `LL` when `L.row[1]` is neither `1` nor `0`, so the
content of the local at entry is the argument `LL`.  The freshly allocated `col` and
`val` arrays start zero-filled. -/
def magma_zilures_LL (L LL : magma_z_matrix R) : magma_z_matrix R × List String :=
  if rdI L.row 1 = 1 then
    (magma_zmconvert_CSR_CSRL .Magma_UNITY L, [])
  else if rdI L.row 1 = 0 then
    let LL := magma_zmtransfer L
    let LL := { LL with nnz := L.nnz + L.num_rows }
    let LL := { LL with val := List.replicate LL.nnz (MAGMA_Z_MAKE (0 : R) 0),
                        col := List.replicate LL.nnz 0 }
    let s := diagadd_loop L { z := 0, row := LL.row, col := LL.col, val := LL.val }
    ({ LL with row := s.row.set LL.num_rows s.z, col := s.col, val := s.val }, [])
  else
    (LL, [diagadd_error])

/-- What `magma_zmLdiagadd` returns: the status code, `*L` and what was printed. -/
structure LdiagaddResult (R : Type) where
  info : Int
  L : magma_z_matrix R
  printed : List String

/-- The routine `magma_zmLdiagadd(L, queue)`.  The argument `LL` is the content of
the local `LL` at entry. -/
def magma_zmLdiagadd (L LL : magma_z_matrix R) : LdiagaddResult R :=
  let r : magma_z_matrix R × List String :=
    if rdI L.row 1 = 1 then
      (magma_zmconvert_CSR_CSRL .Magma_UNITY L, [])
    else if rdI L.row 1 = 0 then
      let LL := magma_zmtransfer L
      let LL := { LL with nnz := L.nnz + L.num_rows }
      let LL := { LL with val := List.replicate LL.nnz (MAGMA_Z_MAKE (0 : R) 0),
                          col := List.replicate LL.nnz 0 }
      let s := diagadd_loop L { z := 0, row := LL.row, col := LL.col, val := LL.val }
      ({ LL with row := s.row.set LL.num_rows s.z, col := s.col, val := s.val,
                 nnz := s.z }, [])
    else
      (LL, [diagadd_error])
  { info := MAGMA_SUCCESS, L := magma_zmtransfer r.1, printed := r.2 }

/-! ## `magma_zilures` -/

/-- What `magma_zilures` returns: the status code, `*LU`, `*res`, `*nonlinres` and
what was printed. -/
structure IluresResult (R : Type) where
  info : Int
  LU : magma_z_matrix R
  res : R
  nonlinres : R
  printed : List String

/-- The variables of the first loop nest of `magma_zilures`: the values of `LU` and
`*nonlinres`. -/
structure ResidualState (R : Type) where
  val : List (magmaDoubleComplex R)
  nonlinres : R

/-- The loop nest "compute Frobenius norm of A-LU" of `magma_zilures` (and of
`magma_zicres`, the same text): every entry of `LU` matched by an entry of `A` is
replaced by the difference of the real parts, whose square is added to
`*nonlinres`. -/
def residual_scan (A LU : magma_z_matrix R) (s : ResidualState R) : ResidualState R :=
  forLoop 0 A.num_rows (fun i s =>
    forLoop (rdI A.row i) (rdI A.row (i + 1)) (fun j s =>
      let lcol := rdI A.col j
      forLoop (rdI LU.row i) (rdI LU.row (i + 1)) (fun k s =>
        if rdI LU.col k = lcol then
          let tmp := MAGMA_Z_MAKE (MAGMA_Z_REAL (rdV s.val k) - MAGMA_Z_REAL (rdV A.val j)) 0
          let tmp2 := |MAGMA_Z_REAL tmp|
          { val := s.val.set k tmp, nonlinres := s.nonlinres + tmp2 * tmp2 }
        else s) s) s) s

/-- The second loop nest of `magma_zilures` (and of `magma_zicres`): the squares of
the real parts of all entries of `LU` are added to `*res`. -/
def residual_total (LU : magma_z_matrix R) (res : R) : R :=
  forLoop 0 LU.num_rows (fun i res =>
    forLoop (rdI LU.row i) (rdI LU.row (i + 1)) (fun j res =>
      let tmp2 := |MAGMA_Z_REAL (rdV LU.val j)|
      res + tmp2 * tmp2) res) res

/-- The routine `magma_zilures(A, L, U, LU, res, nonlinres, queue)`.  The source adds
to `*res` and `*nonlinres` without assigning them first, so their values at entry
are the arguments `res` and `nonlinres`; `LL` is the content of the local `LL` at
entry. -/
def magma_zilures (sqrt : R → R) (A L U LL : magma_z_matrix R) (res nonlinres : R) :
    IluresResult R :=
  let n := magma_zilures_LL L LL
  let L_d := magma_zmtransfer n.1
  let U_d := magma_zmtransfer U
  let one := MAGMA_Z_MAKE 1 0
  let LU_d := magma_z_spmm one L_d U_d
  let LU := magma_zmtransfer LU_d
  let s := residual_scan A LU { val := LU.val, nonlinres := nonlinres }
  let LU := { LU with val := s.val }
  let res := residual_total LU res
  let LU := magma_zmfree LU
  { info := MAGMA_SUCCESS, LU := LU, res := sqrt res, nonlinres := sqrt s.nonlinres,
    printed := n.2 }

/-! ## `magma_zicres` -/

/-- What `magma_zicres` returns: the status code, `*LU`, `*res` and `*nonlinres`. -/
structure IcresResult (R : Type) where
  info : Int
  LU : magma_z_matrix R
  res : R
  nonlinres : R

/-- The routine `magma_zicres(A, C, CT, LU, res, nonlinres, queue)`. -/
def magma_zicres (sqrt : R → R) (A C CT : magma_z_matrix R) : IcresResult R :=
  let res := 0
  let nonlinres := 0
  let L_d := magma_zmtransfer C
  let U_d := magma_zmtransfer CT
  let one := MAGMA_Z_MAKE 1 0
  let LU_d := magma_z_spmm one L_d U_d
  let LU := magma_zmtransfer LU_d
  let s := residual_scan A LU { val := LU.val, nonlinres := nonlinres }
  let LU := { LU with val := s.val }
  let res := residual_total LU res
  let LU := magma_zmfree LU
  { info := MAGMA_SUCCESS, LU := LU, res := sqrt res, nonlinres := sqrt s.nonlinres }

/-! ## `magma_zinitguess` -/

/-- What `magma_zinitguess` returns: the status code and `*L`. -/
structure InitguessResult (R : Type) where
  info : Int
  L : magma_z_matrix R

/-- The loop of `magma_zinitguess` that fills the diagonal matrix `hD` from the
diagonal entries of `hALU`. -/
def initguess_diag (sqrt : R → R) (hALU : magma_z_matrix R)
    (hDval : List (magmaDoubleComplex R)) : List (magmaDoubleComplex R) :=
  forLoop 0 hALU.num_rows (fun i hDval =>
    forLoop (rdI hALU.row i) (rdI hALU.row (i + 1)) (fun j hDval =>
      if rdI hALU.col j = i then
        hDval.set i (MAGMA_Z_MAKE (1 / sqrt |MAGMA_Z_REAL (rdV hALU.val j)|) 0)
      else hDval) hDval) hDval

/-- The routine `magma_zinitguess(A, L, U, queue)`.  The transpose `hAU` of `hAL` is
computed by the source but not used afterwards; the second operand of the first
product is the local `dAU`, which the source never assigns: its content at entry is
the argument `dAU`.  The statements are kept in the order of the source: `hALU` is
released before the loop that scans it. -/
def magma_zinitguess (sqrt : R → R) (A dAU : magma_z_matrix R) : InitguessResult R :=
  let hAL := magma_zmconvert_CSR_CSRL .Magma_VALUE A
  let dAL := magma_zmtransfer hAL
  let one := MAGMA_Z_MAKE 1 0
  let dALU := magma_z_spmm one dAL dAU
  let hALU := magma_zmtransfer dALU
  let hD := magma_zmgenerator hALU.num_rows (MAGMA_Z_MAKE 1 0)
  let hALU := magma_zmfree hALU
  let hD := { hD with val := initguess_diag sqrt hALU hD.val }
  let dD := magma_zmtransfer hD
  let dL := magma_z_spmm one dD dAL
  let hL := magma_zmtransfer dL
  { info := MAGMA_SUCCESS, L := magma_zmconvert_CSR_CSRCOO hL }

/-! ## `magma_zinitrecursiveLU` -/

/-- What `magma_zinitrecursiveLU` returns: the status code and `*B`. -/
structure InitrecursiveResult (R : Type) where
  info : Int
  B : magma_z_matrix R

/-- The routine `magma_zinitrecursiveLU(A, B, queue)`.  The loop runs over the rows of
`A` and reads `B->row[i]`, `B->row[i+1]`: the source assumes that `B` has the rows of
`A`, and the statements about this routine do. -/
def magma_zinitrecursiveLU (A B : magma_z_matrix R) : InitrecursiveResult R :=
  let val := forLoop 0 A.num_rows (fun i val =>
    forLoop (rdI B.row i) (rdI B.row (i + 1)) (fun j val =>
      let val := val.set j (MAGMA_Z_MAKE 0 0)
      let localcol := rdI B.col j
      forLoop (rdI A.row i) (rdI A.row (i + 1)) (fun k val =>
        if rdI A.col k = localcol then val.set j (rdV A.val k) else val) val) val) B.val
  { info := MAGMA_SUCCESS, B := { B with val := val } }

/-! ## Predicates used by the statements -/

/-- The invariant of the diagonal-insertion loop when it is about to copy position
`j` of row `i`: the write position, the array sizes, and what has been written for
the rows before `i` and the positions of row `i` before `j`. -/
def DiagInv (L : magma_z_matrix R) (i j : Nat) (s : DiagAddState R) : Prop :=
  s.z = j + i ∧ s.row.length = L.num_rows + 1 ∧ s.col.length = L.nnz + L.num_rows ∧
  s.val.length = L.nnz + L.num_rows ∧
  (∀ t, t < i → rdI s.row t = rdI L.row t + t) ∧
  (∀ t j', rdI L.row t ≤ j' → j' < rdI L.row (t + 1) → (t < i ∨ (t = i ∧ j' < j)) →
      rdI s.col (j' + t) = rdI L.col j' ∧ rdV s.val (j' + t) = rdV L.val j') ∧
  (∀ t, t < i → rdI s.col (rdI L.row (t + 1) + t) = t ∧
      rdV s.val (rdI L.row (t + 1) + t) = MAGMA_Z_MAKE 1 0)

/-- The matrix `LL` is `L` with one entry (column `i`, value `1+0i`) added at the end
of every row `i`: same number of rows, `nnz + num_rows` entries, row offsets shifted
by the row number. -/
def DiagAdded (L LL : magma_z_matrix R) : Prop :=
  LL.num_rows = L.num_rows ∧ LL.nnz = L.nnz + L.num_rows ∧
  (∀ i, i ≤ L.num_rows → rdI LL.row i = rdI L.row i + i) ∧
  (∀ i, i < L.num_rows → rowEntries LL i = rowEntries L i ++ [(i, MAGMA_Z_MAKE 1 0)])

/-- Every stored entry of `L` lies strictly left of the diagonal. -/
def StrictlyLower (L : magma_z_matrix R) : Prop :=
  ∀ i, i < L.num_rows → ∀ j, j < L.nnz → InRow L i j → rdI L.col j < i

instance (L : magma_z_matrix R) : Decidable (StrictlyLower L) := by
  unfold StrictlyLower; infer_instance

/-- The value `v` is what the scan of row `i` of `A` for column `c` leaves behind: the
value of an entry of that row with column index `c` (the last one in storage order)
if there is one, and zero otherwise. -/
def Transplanted (A : magma_z_matrix R) (i c : Nat) (v : magmaDoubleComplex R) : Prop :=
  (∃ k, InRow A i k ∧ rdI A.col k = c ∧
      (∀ k2, InRow A i k2 → k < k2 → rdI A.col k2 ≠ c) ∧ v = rdV A.val k) ∨
  ((∀ k, InRow A i k → rdI A.col k ≠ c) ∧ v = MAGMA_Z_MAKE 0 0)

/-- The body of the `j` loop of `magma_zinitrecursiveLU` for row `i`: the writes to
`B->val[j]`. -/
def initrecursive_cell (A B : magma_z_matrix R) (i j : Nat)
    (val : List (magmaDoubleComplex R)) : List (magmaDoubleComplex R) :=
  let val := val.set j (MAGMA_Z_MAKE 0 0)
  let localcol := rdI B.col j
  forLoop (rdI A.row i) (rdI A.row (i + 1)) (fun k val =>
    if rdI A.col k = localcol then val.set j (rdV A.val k) else val) val

/-- The body of the `i` loop of `magma_zinitrecursiveLU`: the pass over row `i` of
`B`. -/
def initrecursive_row (A B : magma_z_matrix R) (i : Nat)
    (val : List (magmaDoubleComplex R)) : List (magmaDoubleComplex R) :=
  forLoop (rdI B.row i) (rdI B.row (i + 1)) (fun j val => initrecursive_cell A B i j val) val

/-- No row of `P` stores a column index twice. -/
def NoDupRows (P : magma_z_matrix R) : Prop :=
  ∀ i k1 k2, InRow P i k1 → InRow P i k2 → rdI P.col k1 = rdI P.col k2 → k1 = k2

/-- The value `magma_znonlinres` computes for position `j` of row `i` of `A`. -/
def nonlinres_newval (A LU : magma_z_matrix R) (i j : Nat) : magmaDoubleComplex R :=
  forLoop (rdI LU.row i) (rdI LU.row (i + 1)) (fun k newval =>
    if rdI LU.col k = rdI A.col j then
      MAGMA_Z_MAKE (MAGMA_Z_REAL (rdV LU.val k) - MAGMA_Z_REAL (rdV A.val j)) 0
    else newval) (MAGMA_Z_MAKE 0 0)

/-- The pass of `magma_znonlinres` over row `i` of `A`. -/
def nonlinres_row (A LU : magma_z_matrix R) (i : Nat)
    (val : List (magmaDoubleComplex R)) : List (magmaDoubleComplex R) :=
  forLoop (rdI A.row i) (rdI A.row (i + 1)) (fun j val =>
    val.set j (nonlinres_newval A LU i j)) val

/-- The term `magma_zfrobenius` adds for the pair of positions `j` of `A` and `k` of
`B`: the squared difference of the real parts when the column indices agree. -/
def frobenius_term (A B : magma_z_matrix R) (j k : Nat) : R :=
  if rdI B.col k = rdI A.col j then
    |MAGMA_Z_REAL (rdV A.val j) - MAGMA_Z_REAL (rdV B.val k)|
      * |MAGMA_Z_REAL (rdV A.val j) - MAGMA_Z_REAL (rdV B.val k)|
  else 0

/-- The positions of row `i` of `A`. -/
def rowPositions (A : magma_z_matrix R) (i : Nat) : List Nat :=
  List.range' (rdI A.row i) (rdI A.row (i + 1) - rdI A.row i)

/-- The square `tmp2 * tmp2` of the real part of a value, as the residual loops add it. -/
def sqRe (v : magmaDoubleComplex R) : R := |MAGMA_Z_REAL v| * |MAGMA_Z_REAL v|

/-- The positions the scan has replaced when it is at row `i`, entry `j` of `A` and
position `k` of `LU`: those of earlier rows, those of row `i` matched by an earlier
entry of `A`, and those of row `i` before `k` matched by entry `j`. -/
def Scanned (A LU : magma_z_matrix R) (i j k p : Nat) : Prop :=
  p < rdI LU.row i ∨
  (InRow LU i p ∧
    ((∃ j2, rdI A.row i ≤ j2 ∧ j2 < j ∧ rdI A.col j2 = rdI LU.col p) ∨
     (p < k ∧ rdI LU.col p = rdI A.col j)))

/-- The invariant of the scan: `*nonlinres` is its entry value plus the squares of the
current values at the replaced positions. -/
def ScanInv (A LU : magma_z_matrix R) (nl0 : R) (i j k : Nat) (s : ResidualState R) : Prop :=
  s.val.length = LU.val.length ∧
  ∃ T : Finset Nat, s.nonlinres = nl0 + T.sum (fun p => sqRe (rdV s.val p)) ∧
    ∀ p ∈ T, Scanned A LU i j k p

/-! ## Matrices used in examples -/

/-- The 2x2 CSR matrix whose only entry is a `2` in row 1, column 0. -/
def lowerTwo (R : Type) [LinearOrderedField R] : magma_z_matrix R :=
  { num_rows := 2, nnz := 1, row := [0, 0, 1], col := [0], val := [MAGMA_Z_MAKE 2 0] }

/-- The transpose of `lowerTwo`: a `2` in row 0, column 1. -/
def lowerTwoT (R : Type) [LinearOrderedField R] : magma_z_matrix R :=
  { num_rows := 2, nnz := 1, row := [0, 1, 1], col := [1], val := [MAGMA_Z_MAKE 2 0] }

/-- A strictly lower triangular 3x3 CSR matrix with entries `(1,0)`, `(2,1)`, `(2,0)`. -/
def lower3 (R : Type) [LinearOrderedField R] : magma_z_matrix R :=
  { num_rows := 3, nnz := 3, row := [0, 0, 1, 3], col := [0, 1, 0],
    val := [MAGMA_Z_MAKE 5 0, MAGMA_Z_MAKE 6 0, MAGMA_Z_MAKE 7 0] }

/-- The full lower triangular 3x3 pattern (one more level of fill-in than `lower3`),
every value `9`. -/
def lower3Fill (R : Type) [LinearOrderedField R] : magma_z_matrix R :=
  { num_rows := 3, nnz := 6, row := [0, 1, 3, 6], col := [0, 0, 1, 0, 1, 2],
    val := [MAGMA_Z_MAKE 9 0, MAGMA_Z_MAKE 9 0, MAGMA_Z_MAKE 9 0, MAGMA_Z_MAKE 9 0,
            MAGMA_Z_MAKE 9 0, MAGMA_Z_MAKE 9 0] }

/-- The 1x1 CSR matrix with the single entry `v`. -/
def single (R : Type) [LinearOrderedField R] (v : R) : magma_z_matrix R :=
  { num_rows := 1, nnz := 1, row := [0, 1], col := [0], val := [MAGMA_Z_MAKE v 0] }

end Sparse

/-! ## The variable-batched rank-k update (`zherk_vbatched.cpp`) -/

/-- The values of `magma_uplo_t`. -/
inductive magma_uplo_t where
  | MagmaUpper
  | MagmaLower
  | MagmaFull
deriving DecidableEq, Repr

/-- The values of `magma_trans_t`. -/
inductive magma_trans_t where
  | MagmaNoTrans
  | MagmaTrans
  | MagmaConjTrans
deriving DecidableEq, Repr

/-- What a batched routine does that is visible from outside, in order: a report to
`magma_xerbla` (routine name, argument position), a run of the dimension reduction,
a dispatch of the update kernels with the given maxima. -/
inductive BatchEvent where
  | xerbla (func : String) (pos : Int)
  | imax_size_2
  | herk_kernel (max_n max_k : Int)
deriving DecidableEq, Repr

/-- The memory the batched routines write: the dimension arrays `n` and `k` (length
`batchCount + 1`, the last slot being the sentinel), the contents of the matrices
`C_i` behind `dC_array`, and the trace of events. -/
structure BatchState (C : Type) where
  n : List Int
  k : List Int
  dC : List C
  trace : List BatchEvent

/-- The update the kernels apply to the matrices `C_i`, as a function of all arguments
of `magmablas_zherk_vbatched_max_nocheck`; the kernels are not among the sources. -/
abbrev HerkKernel (S A C : Type) : Type :=
  magma_uplo_t → magma_trans_t → List Int → List Int → S → List A → List Int → S →
    List C → List Int → Nat → Int → Int → List C

/-- Modelled from the spec: `magma_herk_vbatched_checker` is not among the sources.
It inspects `uplo`, `trans` and the per-instance arrays, the sentinel excluded:
`n[i] >= 0`, `k[i] >= 0`, `ldda[i] >= max(1, n[i])` (no-transpose) or `max(1, k[i])`
(conjugate-transpose), `lddc[i] >= max(1, n[i])`, for every `i < batchCount`.  It
returns zero on success and otherwise minus the position of the first offending
argument; it writes nothing. -/
def magma_herk_vbatched_checker (uplo : magma_uplo_t) (trans : magma_trans_t)
    (n k ldda lddc : List Int) (batchCount : Nat) : Int :=
  if uplo ≠ .MagmaUpper ∧ uplo ≠ .MagmaLower then -1
  else if trans ≠ .MagmaNoTrans ∧ trans ≠ .MagmaConjTrans then -2
  else if ∃ i, i < batchCount ∧ n.getD i 0 < 0 then -3
  else if ∃ i, i < batchCount ∧ k.getD i 0 < 0 then -4
  else if ∃ i, i < batchCount ∧
      ldda.getD i 0 < max 1 (if trans = .MagmaNoTrans then n.getD i 0 else k.getD i 0) then -7
  else if ∃ i, i < batchCount ∧ lddc.getD i 0 < max 1 (n.getD i 0) then -10
  else 0

/-- The maximum of the first `batchCount` entries of a dimension array. -/
def batchMax (xs : List Int) (batchCount : Nat) : Int :=
  (xs.take batchCount).foldl max (xs.getD 0 0)

/-- Modelled from the spec: `magma_imax_size_2` is not among the sources.  It computes
the maximum of each array over the batch and writes it into the array's own sentinel
slot (index `batchCount`); it does not touch the indices below `batchCount`. -/
def magma_imax_size_2 {C : Type} (s : BatchState C) (batchCount : Nat) : BatchState C :=
  { s with n := s.n.set batchCount (batchMax s.n batchCount),
           k := s.k.set batchCount (batchMax s.k batchCount),
           trace := s.trace ++ [.imax_size_2] }

/-- Modelled from the spec: `magmablas_zherk_vbatched_max_nocheck` is not among the
sources.  It skips validation and maxima computation and launches the kernels sized
to `(max_n, max_k)`, which update every `C_i` in place. -/
def magmablas_zherk_vbatched_max_nocheck {S A C : Type} (kernel : HerkKernel S A C)
    (uplo : magma_uplo_t) (trans : magma_trans_t) (s : BatchState C) (alpha : S)
    (dA_array : List A) (ldda : List Int) (beta : S) (lddc : List Int) (batchCount : Nat)
    (max_n max_k : Int) : BatchState C :=
  { s with dC := kernel uplo trans s.n s.k alpha dA_array ldda beta s.dC lddc batchCount
                   max_n max_k,
           trace := s.trace ++ [.herk_kernel max_n max_k] }

/-- The routine `magmablas_zherk_vbatched_max`. -/
def magmablas_zherk_vbatched_max {S A C : Type} (kernel : HerkKernel S A C)
    (uplo : magma_uplo_t) (trans : magma_trans_t) (s : BatchState C) (alpha : S)
    (dA_array : List A) (ldda : List Int) (beta : S) (lddc : List Int) (batchCount : Nat)
    (max_n max_k : Int) : BatchState C :=
  let info := magma_herk_vbatched_checker uplo trans s.n s.k ldda lddc batchCount
  if info ≠ 0 then
    { s with trace := s.trace ++ [.xerbla "magmablas_zherk_vbatched_max" (-info)] }
  else
    magmablas_zherk_vbatched_max_nocheck kernel uplo trans s alpha dA_array ldda beta lddc
      batchCount max_n max_k

/-- The routine `magmablas_zherk_vbatched_nocheck`. -/
def magmablas_zherk_vbatched_nocheck {S A C : Type} (kernel : HerkKernel S A C)
    (uplo : magma_uplo_t) (trans : magma_trans_t) (s : BatchState C) (alpha : S)
    (dA_array : List A) (ldda : List Int) (beta : S) (lddc : List Int) (batchCount : Nat) :
    BatchState C :=
  let s := magma_imax_size_2 s batchCount
  let max_n := s.n.getD batchCount 0
  let max_k := s.k.getD batchCount 0
  magmablas_zherk_vbatched_max_nocheck kernel uplo trans s alpha dA_array ldda beta lddc
    batchCount max_n max_k

/-- The routine `magmablas_zherk_vbatched`. -/
def magmablas_zherk_vbatched {S A C : Type} (kernel : HerkKernel S A C)
    (uplo : magma_uplo_t) (trans : magma_trans_t) (s : BatchState C) (alpha : S)
    (dA_array : List A) (ldda : List Int) (beta : S) (lddc : List Int) (batchCount : Nat) :
    BatchState C :=
  let info := magma_herk_vbatched_checker uplo trans s.n s.k ldda lddc batchCount
  if info ≠ 0 then
    { s with trace := s.trace ++ [.xerbla "magmablas_zherk_vbatched" (-info)] }
  else
    let s := magma_imax_size_2 s batchCount
    let max_n := s.n.getD batchCount 0
    let max_k := s.k.getD batchCount 0
    magmablas_zherk_vbatched_max_nocheck kernel uplo trans s alpha dA_array ldda beta lddc
      batchCount max_n max_k

/-- Some instance of the batch has a negative order or an undersized leading
dimension. -/
def BatchInvalid (trans : magma_trans_t) (n k ldda lddc : List Int) (batchCount : Nat) :
    Prop :=
  (∃ i, i < batchCount ∧ n.getD i 0 < 0) ∨
  (∃ i, i < batchCount ∧
    ldda.getD i 0 < max 1 (if trans = .MagmaNoTrans then n.getD i 0 else k.getD i 0)) ∨
  (∃ i, i < batchCount ∧ lddc.getD i 0 < max 1 (n.getD i 0))

instance (trans : magma_trans_t) (n k ldda lddc : List Int) (batchCount : Nat) :
    Decidable (BatchInvalid trans n k ldda lddc batchCount) := by
  unfold BatchInvalid; infer_instance

/-- The update used to exercise the batched routines: every `C_i` is replaced by `1`. -/
def markKernel : HerkKernel Int Int Int :=
  fun _ _ _ _ _ _ _ _ dC _ _ _ _ => dC.map (fun _ => 1)

/-- The kernel reads the dimension arrays `n` and `k` below index `batchCount` only:
two calls whose arrays agree there update the matrices alike. -/
def KernelReadsBatch {S A C : Type} (kernel : HerkKernel S A C) : Prop :=
  ∀ (uplo : magma_uplo_t) (trans : magma_trans_t) (n n2 k k2 : List Int) (alpha : S)
    (dA_array : List A) (ldda : List Int) (beta : S) (dC : List C) (lddc : List Int)
    (batchCount : Nat) (max_n max_k : Int),
    n.take batchCount = n2.take batchCount → k.take batchCount = k2.take batchCount →
    kernel uplo trans n k alpha dA_array ldda beta dC lddc batchCount max_n max_k
      = kernel uplo trans n2 k2 alpha dA_array ldda beta dC lddc batchCount max_n max_k

/-! ## The update kernel -/

section Kernel

variable {R : Type} [LinearOrderedField R]

/-- A dense matrix behind a device pointer, as the map from row and column index to
the entry. -/
abbrev DenseMatrix (R : Type) : Type := Nat → Nat → magmaDoubleComplex R

/-- Complex conjugation. -/
def MAGMA_Z_CNJG (a : magmaDoubleComplex R) : magmaDoubleComplex R :=
  MAGMA_Z_MAKE a.re (-a.im)

/-- The dense matrix with all entries zero. -/
def zeroDense (R : Type) [LinearOrderedField R] : DenseMatrix R :=
  fun _ _ => MAGMA_Z_MAKE 0 0

/-- The dense identity matrix. -/
def identityDense (R : Type) [LinearOrderedField R] : DenseMatrix R :=
  fun r c => if r = c then MAGMA_Z_MAKE 1 0 else MAGMA_Z_MAKE 0 0

/-- Entry `(r, l)` of `op(A)`: `A` itself for no-transpose, the conjugate transpose
otherwise. -/
def herk_op (trans : magma_trans_t) (A : DenseMatrix R) (r l : Nat) :
    magmaDoubleComplex R :=
  if trans = .MagmaNoTrans then A r l else MAGMA_Z_CNJG (A l r)

/-- Entry `(r, c)` of `op(A) * op(A)^H` with inner dimension `k`. -/
def herk_entry (trans : magma_trans_t) (A : DenseMatrix R) (k r c : Nat) :
    magmaDoubleComplex R :=
  (List.range k).foldl (fun acc l =>
    MAGMA_Z_ADD acc (MAGMA_Z_MUL (herk_op trans A r l) (MAGMA_Z_CNJG (herk_op trans A c l))))
    (MAGMA_Z_MAKE 0 0)

/-- Entry `(r, c)` lies in the triangular half of an `n` by `n` matrix named by `uplo`. -/
def InTriangle (uplo : magma_uplo_t) (n r c : Nat) : Prop :=
  r < n ∧ c < n ∧ (if uplo = .MagmaLower then c ≤ r else r ≤ c)

instance (uplo : magma_uplo_t) (n r c : Nat) : Decidable (InTriangle uplo n r c) := by
  unfold InTriangle; infer_instance

/-- The product of the real scalar `alpha` and a complex value. -/
def MAGMA_Z_SCALE (alpha : R) (a : magmaDoubleComplex R) : magmaDoubleComplex R :=
  MAGMA_Z_MAKE (alpha * a.re) (alpha * a.im)

/-- The update of one instance: in the triangular half named by `uplo`,
`C := alpha * op(A) * op(A)^H + beta * C` with the imaginary part of the diagonal
entries set to zero; the other entries of `C` stay as they are. -/
def herk_update (uplo : magma_uplo_t) (trans : magma_trans_t) (n k : Nat) (alpha beta : R)
    (A C : DenseMatrix R) : DenseMatrix R :=
  fun r c =>
    if InTriangle uplo n r c then
      let v := MAGMA_Z_ADD (MAGMA_Z_SCALE alpha (herk_entry trans A k r c))
        (MAGMA_Z_SCALE beta (C r c))
      if r = c then MAGMA_Z_MAKE v.re 0 else v
    else C r c

/-- Modelled from the spec: the kernels behind `magmablas_zherk_vbatched_max_nocheck`
are not among the sources.  They update "every instance's `dC_array[i]` in place as
`C_i := alpha * op(A_i) * op(A_i)^H + beta * C_i`, restricted to the triangular half
indicated by `uplo`", with "the imaginary component of every diagonal entry" zeroed;
`(max_n, max_k)` size the launch configuration only.  Instance `i` has order `n[i]`
and inner dimension `k[i]`. -/
def herk_kernel_spec : HerkKernel R (DenseMatrix R) (DenseMatrix R) :=
  fun uplo trans n k alpha dA_array _ldda beta dC _lddc batchCount _max_n _max_k =>
    (List.range dC.length).map (fun i =>
      if i < batchCount then
        herk_update uplo trans (n.getD i 0).toNat (k.getD i 0).toNat alpha beta
          (dA_array.getD i (zeroDense R)) (dC.getD i (zeroDense R))
      else dC.getD i (zeroDense R))

/-- The batch of the scenario: two instances of orders 2 and 3 with inner dimensions 2
and 3, and matrices `C_i` filled with `5 + 7i`. -/
def scenarioBatch (R : Type) [LinearOrderedField R] : BatchState (DenseMatrix R) :=
  { n := [2, 3, 0], k := [2, 3, 0],
    dC := [fun _ _ => MAGMA_Z_MAKE 5 7, fun _ _ => MAGMA_Z_MAKE 5 7], trace := [] }

end Kernel

/-! ## Loop lemmas -/

theorem foldl_invariant {σ α : Type} (P : σ → Prop) (f : σ → α → σ) :
    ∀ (l : List α) (s : σ), P s → (∀ x ∈ l, ∀ t, P t → P (f t x)) → P (l.foldl f s) := by
  intro l
  induction l with
  | nil => intro s h _; simpa using h
  | cons x xs ih =>
    intro s h hstep
    simp only [List.foldl_cons]
    apply ih
    · exact hstep x (List.mem_cons_self x xs) s h
    · intro y hy t ht
      exact hstep y (List.mem_cons_of_mem x hy) t ht

/-- A property that holds at entry and is kept by every iteration holds at exit. -/
theorem forLoop_invariant {σ : Type} (P : σ → Prop) (a b : Nat) (body : Nat → σ → σ) (s : σ)
    (h0 : P s) (hstep : ∀ j, a ≤ j → j < b → ∀ t, P t → P (body j t)) :
    P (forLoop a b body s) := by
  unfold forLoop
  apply foldl_invariant P _ _ s h0
  intro j hj t ht
  rw [List.mem_range'_1] at hj
  apply hstep j hj.1 _ t ht
  omega

theorem forLoop_succ {σ : Type} (a b : Nat) (body : Nat → σ → σ) (s : σ) (h : a ≤ b) :
    forLoop a (b + 1) body s = body b (forLoop a b body s) := by
  unfold forLoop
  have : b + 1 - a = (b - a) + 1 := by omega
  rw [this, List.range'_concat, List.foldl_append]
  simp
  congr 1
  omega

theorem forLoop_empty {σ : Type} (a b : Nat) (body : Nat → σ → σ) (s : σ) (h : b ≤ a) :
    forLoop a b body s = s := by
  unfold forLoop
  have : b - a = 0 := by omega
  rw [this]; rfl

/-- A loop invariant indexed by the loop counter. -/
theorem forLoop_induction {σ : Type} (P : Nat → σ → Prop) (a b : Nat) (body : Nat → σ → σ)
    (s : σ) (hab : a ≤ b) (h0 : P a s)
    (hstep : ∀ j, a ≤ j → j < b → ∀ t, P j t → P (j + 1) (body j t)) :
    P b (forLoop a b body s) := by
  induction b with
  | zero =>
    have : a = 0 := by omega
    subst this
    simpa [forLoop] using h0
  | succ b ih =>
    rcases Nat.lt_or_ge a (b + 1) with h | h
    · have hab2 : a ≤ b := by omega
      rw [forLoop_succ a b body s hab2]
      apply hstep b hab2 (by omega)
      exact ih hab2 (fun j h1 h2 t ht => hstep j h1 (by omega) t ht)
    · have : a = b + 1 := by omega
      subst this
      rw [forLoop_empty _ _ _ _ (le_refl _)]
      exact h0

section SparseProofs

variable {R : Type} [LinearOrderedField R]

/-! ## Reading and writing arrays, well-formed matrices -/

theorem rdI_set_ne (l : List Nat) (p q x : Nat) (h : p ≠ q) : rdI (l.set p x) q = rdI l q := by
  simp [rdI, List.getD_eq_getElem?_getD, List.getElem?_set, h]

theorem rdI_set_eq (l : List Nat) (p x : Nat) (h : p < l.length) : rdI (l.set p x) p = x := by
  simp [rdI, List.getD_eq_getElem?_getD, List.getElem?_set, h]

theorem rdV_set_ne (l : List (magmaDoubleComplex R)) (p q : Nat) (x : magmaDoubleComplex R)
    (h : p ≠ q) : rdV (l.set p x) q = rdV l q := by
  simp [rdV, List.getD_eq_getElem?_getD, List.getElem?_set, h]

theorem rdV_set_eq (l : List (magmaDoubleComplex R)) (p : Nat) (x : magmaDoubleComplex R)
    (h : p < l.length) : rdV (l.set p x) p = x := by
  simp [rdV, List.getD_eq_getElem?_getD, List.getElem?_set, h]

/-- Row offsets of a well-formed matrix are monotone. -/
theorem WellFormed.mono {A : magma_z_matrix R} (h : WellFormed A) :
    ∀ b, b ≤ A.num_rows → ∀ a, a ≤ b → rdI A.row a ≤ rdI A.row b := by
  intro b
  induction b with
  | zero => intro _ a ha; have : a = 0 := by omega
            subst this; exact le_refl _
  | succ b ih =>
    intro hb a ha
    rcases Nat.lt_or_ge a (b + 1) with h1 | h1
    · exact le_trans (ih (by omega) a (by omega)) (h.2.2.2.1 b (by omega))
    · have : a = b + 1 := by omega
      subst this; exact le_refl _

theorem WellFormed.le_nnz {A : magma_z_matrix R} (h : WellFormed A) (a : Nat)
    (ha : a ≤ A.num_rows) : rdI A.row a ≤ A.nnz := by
  have := h.mono A.num_rows (le_refl _) a ha
  rw [h.2.2.1] at this
  exact this



theorem diagadd_inner_step (L : magma_z_matrix R) (hL : WellFormed L) (i j : Nat)
    (hi : i < L.num_rows) (hj1 : rdI L.row i ≤ j) (hj2 : j < rdI L.row (i + 1))
    (s : DiagAddState R) (h : DiagInv L i j s) :
    DiagInv L i (j + 1)
      { s with val := s.val.set s.z (rdV L.val j), col := s.col.set s.z (rdI L.col j),
               z := s.z + 1 } := by
  obtain ⟨hz, hr, hc, hv, hrow, hE, hD⟩ := h
  have hnnz := hL.le_nnz (i + 1) (by omega)
  refine ⟨?_, ?_, ?_, ?_, ?_, ?_, ?_⟩
  · show s.z + 1 = j + 1 + i
    omega
  · exact hr
  · show (s.col.set s.z _).length = _
    rw [List.length_set]; exact hc
  · show (s.val.set s.z _).length = _
    rw [List.length_set]; exact hv
  · exact hrow
  · intro t j' h1 h2 h3
    show rdI (s.col.set s.z _) (j' + t) = _ ∧ rdV (s.val.set s.z _) (j' + t) = _
    by_cases hpos : t = i ∧ j' = j
    · obtain ⟨rfl, rfl⟩ := hpos
      rw [← hz, rdI_set_eq _ _ _ (by omega), rdV_set_eq _ _ _ (by omega)]
      exact ⟨rfl, rfl⟩
    · have hne : s.z ≠ j' + t := by
        rcases h3 with h3 | ⟨h3, h4⟩
        · have := hL.mono i (by omega) (t + 1) (by omega)
          omega
        · omega
      rw [rdI_set_ne _ _ _ _ hne, rdV_set_ne _ _ _ _ hne]
      apply hE t j' h1 h2
      omega
  · intro t ht
    show rdI (s.col.set s.z _) _ = _ ∧ rdV (s.val.set s.z _) _ = _
    have := hL.mono i (by omega) (t + 1) (by omega)
    have hne : s.z ≠ rdI L.row (t + 1) + t := by omega
    rw [rdI_set_ne _ _ _ _ hne, rdV_set_ne _ _ _ _ hne]
    exact hD t ht

theorem diagadd_outer_step (L : magma_z_matrix R) (hL : WellFormed L) (i : Nat)
    (hi : i < L.num_rows) (s : DiagAddState R) (h : DiagInv L i (rdI L.row i) s) :
    DiagInv L (i + 1) (rdI L.row (i + 1))
      (let s := { s with row := s.row.set i s.z }
       let s := forLoop (rdI L.row i) (rdI L.row (i + 1)) (fun j s =>
          { s with val := s.val.set s.z (rdV L.val j), col := s.col.set s.z (rdI L.col j),
                   z := s.z + 1 }) s
       { s with val := s.val.set s.z (MAGMA_Z_MAKE 1 0), col := s.col.set s.z i,
                z := s.z + 1 }) := by
  have hmono := hL.2.2.2.1 i hi
  have hnnz := hL.le_nnz (i + 1) (by omega)
  have h1 : DiagInv L i (rdI L.row i) { s with row := s.row.set i s.z } ∧
      rdI (s.row.set i s.z) i = rdI L.row i + i := by
    obtain ⟨hz, hr, hc, hv, hrow, hE, hD⟩ := h
    refine ⟨⟨hz, ?_, hc, hv, ?_, hE, hD⟩, ?_⟩
    · show (s.row.set i s.z).length = _
      rw [List.length_set]; exact hr
    · intro t ht
      show rdI (s.row.set i s.z) t = _
      rw [rdI_set_ne _ _ _ _ (by omega)]
      exact hrow t ht
    · rw [rdI_set_eq _ _ _ (by omega), hz]
  have h2 := forLoop_induction
    (fun j (t : DiagAddState R) => DiagInv L i j t ∧ rdI t.row i = rdI L.row i + i)
    (rdI L.row i) (rdI L.row (i + 1))
    (fun j s => { s with val := s.val.set s.z (rdV L.val j),
                         col := s.col.set s.z (rdI L.col j), z := s.z + 1 })
    { s with row := s.row.set i s.z } hmono h1
    (fun j hj1 hj2 t ht => ⟨diagadd_inner_step L hL i j hi hj1 hj2 t ht.1, ht.2⟩)
  simp only []
  generalize forLoop (rdI L.row i) (rdI L.row (i + 1)) (fun j s =>
          { s with val := s.val.set s.z (rdV L.val j), col := s.col.set s.z (rdI L.col j),
                   z := s.z + 1 }) { s with row := s.row.set i s.z } = u at h2 ⊢
  obtain ⟨⟨hz, hr, hc, hv, hrow, hE, hD⟩, hri⟩ := h2
  refine ⟨?_, hr, ?_, ?_, ?_, ?_, ?_⟩
  · show u.z + 1 = _
    omega
  · show (u.col.set u.z _).length = _
    rw [List.length_set]; exact hc
  · show (u.val.set u.z _).length = _
    rw [List.length_set]; exact hv
  · intro t ht
    rcases Nat.lt_or_ge t i with h3 | h3
    · exact hrow t h3
    · have : t = i := by omega
      subst this; exact hri
  · intro t j' h3 h4 h5
    show rdI (u.col.set u.z _) (j' + t) = _ ∧ rdV (u.val.set u.z _) (j' + t) = _
    have hti : t ≤ i := by
      rcases h5 with h5 | ⟨h5, h6⟩
      · omega
      · subst h5; omega
    have hne : u.z ≠ j' + t := by
      rcases Nat.lt_or_ge t i with h6 | h6
      · have := hL.mono i (by omega) (t + 1) (by omega)
        omega
      · have : t = i := by omega
        subst this; omega
    rw [rdI_set_ne _ _ _ _ hne, rdV_set_ne _ _ _ _ hne]
    apply hE t j' h3 h4
    rcases Nat.lt_or_ge t i with h6 | h6
    · exact Or.inl h6
    · have : t = i := by omega
      subst this
      exact Or.inr ⟨rfl, h4⟩
  · intro t ht
    show rdI (u.col.set u.z _) _ = _ ∧ rdV (u.val.set u.z _) _ = _
    rcases Nat.lt_or_ge t i with h6 | h6
    · have := hL.mono i (by omega) (t + 1) (by omega)
      have hne : u.z ≠ rdI L.row (t + 1) + t := by omega
      rw [rdI_set_ne _ _ _ _ hne, rdV_set_ne _ _ _ _ hne]
      exact hD t h6
    · have : t = i := by omega
      subst this
      rw [← hz, rdI_set_eq _ _ _ (by omega), rdV_set_eq _ _ _ (by omega)]
      exact ⟨rfl, rfl⟩

theorem diagadd_loop_spec (L : magma_z_matrix R) (hL : WellFormed L) :
    DiagInv L L.num_rows (rdI L.row L.num_rows)
      (diagadd_loop L
        { z := 0, row := L.row, col := List.replicate (L.nnz + L.num_rows) 0,
          val := List.replicate (L.nnz + L.num_rows) (MAGMA_Z_MAKE 0 0) }) := by
  unfold diagadd_loop
  apply forLoop_induction (fun i (t : DiagAddState R) => DiagInv L i (rdI L.row i) t)
    0 L.num_rows _ _ (Nat.zero_le _)
  · refine ⟨?_, hL.1, by simp, by simp, ?_, ?_, ?_⟩
    · show 0 = _
      rw [hL.2.1]
    · intro t ht; omega
    · intro t j' h1 h2 h3
      rcases h3 with h3 | ⟨h3, h4⟩
      · omega
      · subst h3; omega
    · intro t ht; omega
  · intro i _ hi t ht
    exact diagadd_outer_step L hL i hi t ht



/-- The matrix assembled from the final state of the diagonal-insertion loop. -/
theorem diagadd_result (L : magma_z_matrix R) (hL : WellFormed L) (s : DiagAddState R)
    (hs : DiagInv L L.num_rows (rdI L.row L.num_rows) s) (k : Nat)
    (hk : k = L.nnz + L.num_rows) :
    DiagAdded L { num_rows := L.num_rows, nnz := k, row := s.row.set L.num_rows s.z,
                  col := s.col, val := s.val } ∧
    WellFormed ({ num_rows := L.num_rows, nnz := k, row := s.row.set L.num_rows s.z,
                  col := s.col, val := s.val } : magma_z_matrix R) := by
  obtain ⟨hz, hr, hc, hv, hrow, hE, hD⟩ := hs
  have hrows : ∀ i, i ≤ L.num_rows → rdI (s.row.set L.num_rows s.z) i = rdI L.row i + i := by
    intro i hi
    rcases Nat.lt_or_ge i L.num_rows with h | h
    · rw [rdI_set_ne _ _ _ _ (by omega)]
      exact hrow i h
    · have : i = L.num_rows := by omega
      subst this
      rw [rdI_set_eq _ _ _ (by omega), hz]
  refine ⟨⟨rfl, hk, hrows, ?_⟩, ?_⟩
  · intro i hi
    have hm := hL.2.2.2.1 i hi
    unfold rowEntries
    show List.map _ (List.range' (rdI (s.row.set L.num_rows s.z) i)
      (rdI (s.row.set L.num_rows s.z) (i + 1) - rdI (s.row.set L.num_rows s.z) i)) = _
    rw [hrows i (by omega), hrows (i + 1) (by omega)]
    have e1 : rdI L.row (i + 1) + (i + 1) - (rdI L.row i + i)
        = (rdI L.row (i + 1) - rdI L.row i) + 1 := by omega
    rw [e1, List.range'_concat, List.map_append]
    congr 1
    · have e2 : rdI L.row i + i = i + rdI L.row i := by omega
      rw [e2, ← List.map_add_range', List.map_map]
      apply List.map_congr_left
      intro j hj
      rw [List.mem_range'_1] at hj
      have := hE i j hj.1 (by omega) (Or.inl hi)
      simp only [Function.comp]
      rw [Nat.add_comm i j, this.1, this.2]
    · have e3 : rdI L.row i + i + 1 * (rdI L.row (i + 1) - rdI L.row i)
          = rdI L.row (i + 1) + i := by omega
      simp only [List.map_cons, List.map_nil, e3]
      rw [(hD i hi).1, (hD i hi).2]
  · refine ⟨?_, ?_, ?_, ?_, ?_, ?_⟩
    · show (s.row.set L.num_rows s.z).length = _
      rw [List.length_set]; exact hr
    · show rdI (s.row.set L.num_rows s.z) 0 = 0
      rw [hrows 0 (Nat.zero_le _), hL.2.1]
    · show rdI (s.row.set L.num_rows s.z) L.num_rows = k
      rw [hrows _ (le_refl _), hL.2.2.1, hk]
    · intro i hi
      have hi2 : i < L.num_rows := hi
      show rdI (s.row.set L.num_rows s.z) i ≤ rdI (s.row.set L.num_rows s.z) (i + 1)
      rw [hrows i (by omega), hrows (i + 1) (by omega)]
      have := hL.2.2.2.1 i hi2
      omega
    · show s.col.length = k
      omega
    · show s.val.length = k
      omega

theorem zmLdiagadd_strict (L LL : magma_z_matrix R) (hL : WellFormed L)
    (h1 : rdI L.row 1 = 0) :
    DiagAdded L (magma_zmLdiagadd L LL).L ∧ WellFormed (magma_zmLdiagadd L LL).L := by
  have hs := diagadd_loop_spec L hL
  have hres := diagadd_result L hL _ hs _ (hs.1.trans (by rw [hL.2.2.1]))
  have hne : ¬ (rdI L.row 1 = 1) := by omega
  simp only [magma_zmLdiagadd, magma_zmtransfer, h1, if_neg, if_pos]
  simp only [if_neg (show ¬ ((0:Nat) = 1) by omega), if_true]
  exact hres

theorem zilures_LL_strict (L LL : magma_z_matrix R) (hL : WellFormed L)
    (h1 : rdI L.row 1 = 0) :
    DiagAdded L (magma_zilures_LL L LL).1 ∧ WellFormed (magma_zilures_LL L LL).1 := by
  have hs := diagadd_loop_spec L hL
  have hres := diagadd_result L hL _ hs _ rfl
  simp only [magma_zilures_LL, magma_zmtransfer, h1]
  simp only [if_neg (show ¬ ((0:Nat) = 1) by omega), if_true]
  exact hres



theorem rdI_eq_getElem (l : List Nat) (i : Nat) (h : i < l.length) : rdI l i = l[i] := by
  simp [rdI, List.getD_eq_getElem?_getD, h]

theorem rdV_eq_getElem (l : List (magmaDoubleComplex R)) (i : Nat) (h : i < l.length) :
    rdV l i = l[i] := by
  simp [rdV, List.getD_eq_getElem?_getD, h]

theorem rdI_default (l : List Nat) (i : Nat) (h : l.length ≤ i) : rdI l i = 0 :=
  List.getD_eq_default _ _ h

/-- The rows `0 .. n-1` of a matrix, one after the other, are its first `row[n]`
entries. -/
theorem flatten_rowEntries (A : magma_z_matrix R) (h0 : rdI A.row 0 = 0)
    (hm : ∀ i, i < A.num_rows → rdI A.row i ≤ rdI A.row (i + 1)) :
    ∀ n, n ≤ A.num_rows →
      ((List.range n).map (rowEntries A)).flatten
        = (List.range' 0 (rdI A.row n)).map (fun j => (rdI A.col j, rdV A.val j)) := by
  intro n
  induction n with
  | zero => intro _; simp [h0]
  | succ n ih =>
    intro hn
    rw [List.range_succ, List.map_append, List.flatten_append, ih (by omega)]
    have := hm n (by omega)
    simp only [List.map_cons, List.map_nil, List.flatten_cons, List.flatten_nil,
      List.append_nil, rowEntries]
    rw [← List.map_append]
    congr 1
    have e : rdI A.row (n + 1) = (rdI A.row (n + 1) - rdI A.row n) + rdI A.row n := by omega
    conv_rhs => rw [e]
    rw [← List.range'_append_1]
    simp

theorem rdI_rowOffsets {α : Type} (rows : List (List α)) (i : Nat) (h : i ≤ rows.length) :
    rdI (rowOffsets rows) i = (rows.take i).flatten.length := by
  unfold rowOffsets
  rw [rdI_eq_getElem _ _ (by simp; omega)]
  simp

/-- A well-formed CSR matrix is the CSR storage of its rows. -/
theorem csrOfRows_rowEntries (A : magma_z_matrix R) (hA : WellFormed A) :
    csrOfRows ((List.range A.num_rows).map (rowEntries A)) = A := by
  obtain ⟨hlen, h0, hn, hm, hc, hv⟩ := hA
  have hfl := flatten_rowEntries A h0 hm
  have hrow : rowOffsets ((List.range A.num_rows).map (rowEntries A)) = A.row := by
    apply List.ext_getElem
    · simp [rowOffsets, hlen]
    · intro i h1 h2
      have hi : i ≤ A.num_rows := by
        simp [rowOffsets] at h1; omega
      rw [← rdI_eq_getElem _ _ h1, ← rdI_eq_getElem _ _ h2, rdI_rowOffsets _ _ (by simpa using hi)]
      rw [← List.map_take, List.take_range, min_eq_left hi, hfl i hi]
      simp
  have hcol : (((List.range A.num_rows).map (rowEntries A)).flatten).map Prod.fst = A.col := by
    rw [hfl _ (le_refl _), hn, List.map_map]
    apply List.ext_getElem
    · simp [hc]
    · intro i h1 h2
      simp [rdI_eq_getElem _ _ h2]
  have hval : (((List.range A.num_rows).map (rowEntries A)).flatten).map Prod.snd = A.val := by
    rw [hfl _ (le_refl _), hn, List.map_map]
    apply List.ext_getElem
    · simp [hv]
    · intro i h1 h2
      simp [rdV_eq_getElem _ _ h2]
  have hnnz : (((List.range A.num_rows).map (rowEntries A)).flatten).length = A.nnz := by
    rw [hfl _ (le_refl _), hn]; simp
  cases A
  simp only [csrOfRows] at *
  simp [hrow, hcol, hval, hnnz]



theorem mem_rowEntries {A : magma_z_matrix R} {i : Nat} {e : Nat × magmaDoubleComplex R}
    (h : e ∈ rowEntries A i) : ∃ j, InRow A i j ∧ e = (rdI A.col j, rdV A.val j) := by
  unfold rowEntries at h
  rw [List.mem_map] at h
  obtain ⟨j, hj, rfl⟩ := h
  rw [List.mem_range'_1] at hj
  exact ⟨j, ⟨hj.1, by omega⟩, rfl⟩

theorem filterMap_eq_self {α : Type} (f : α → Option α) (l : List α)
    (h : ∀ x ∈ l, f x = some x) : l.filterMap f = l := by
  induction l with
  | nil => rfl
  | cons x xs ih =>
    rw [List.filterMap_cons, h x (List.mem_cons_self _ _)]
    simp only
    rw [ih (fun y hy => h y (List.mem_cons_of_mem _ hy))]

/-- The extraction with unit diagonal leaves a matrix as it is when every row holds
entries left of the diagonal and diagonal entries of value one only. -/
theorem convert_unity_fixed (A : magma_z_matrix R) (hA : WellFormed A)
    (h : ∀ i, i < A.num_rows → ∀ e ∈ rowEntries A i,
      e.1 < i ∨ e = (i, MAGMA_Z_MAKE 1 0)) :
    magma_zmconvert_CSR_CSRL .Magma_UNITY A = A := by
  unfold magma_zmconvert_CSR_CSRL
  have : (List.range A.num_rows).map
      (fun i => (rowEntries A i).filterMap (lowerEntry .Magma_UNITY i))
      = (List.range A.num_rows).map (rowEntries A) := by
    apply List.map_congr_left
    intro i hi
    rw [List.mem_range] at hi
    apply filterMap_eq_self
    intro e he
    rcases h i hi e he with h1 | h1
    · simp [lowerEntry, h1]
    · subst h1
      simp [lowerEntry]
  rw [this]
  exact csrOfRows_rowEntries A hA

theorem strictlyLower_row1 (L : magma_z_matrix R) (hL : WellFormed L)
    (hs : StrictlyLower L) : rdI L.row 1 = 0 := by
  rcases Nat.eq_zero_or_pos L.num_rows with h | h
  · apply rdI_default
    rw [hL.1, h]
  · by_contra hne
    have h1 := hL.le_nnz 1 (by omega)
    have := hs 0 h 0 (by omega) ⟨by rw [hL.2.1], by show 0 < rdI L.row 1; omega⟩
    omega

/-! ## The value transplant of `magma_zinitrecursiveLU` -/

theorem initrecursive_cell_length (A B : magma_z_matrix R) (i j : Nat)
    (val : List (magmaDoubleComplex R)) :
    (initrecursive_cell A B i j val).length = val.length := by
  unfold initrecursive_cell
  apply forLoop_invariant (fun (v : List (magmaDoubleComplex R)) => v.length = val.length)
  · simp
  · intro k _ _ t ht
    by_cases h : rdI A.col k = rdI B.col j
    · simp [h, ht]
    · simp [h, ht]

theorem initrecursive_cell_other (A B : magma_z_matrix R) (i j p : Nat)
    (val : List (magmaDoubleComplex R)) (hp : j ≠ p) :
    rdV (initrecursive_cell A B i j val) p = rdV val p := by
  unfold initrecursive_cell
  apply forLoop_invariant (fun v => rdV v p = rdV val p)
  · exact rdV_set_ne _ _ _ _ hp
  · intro k _ _ t ht
    by_cases h : rdI A.col k = rdI B.col j
    · simp only [h, if_true]
      rw [rdV_set_ne _ _ _ _ hp]; exact ht
    · simp only [h, if_false]; exact ht

theorem initrecursive_cell_self (A B : magma_z_matrix R) (i j : Nat)
    (val : List (magmaDoubleComplex R)) (hj : j < val.length) :
    Transplanted A i (rdI B.col j) (rdV (initrecursive_cell A B i j val) j) := by
  unfold initrecursive_cell
  rcases Nat.lt_or_ge (rdI A.row (i + 1)) (rdI A.row i) with hlt | hge
  · rw [forLoop_empty _ _ _ _ (by omega)]
    right
    refine ⟨?_, rdV_set_eq _ _ _ hj⟩
    intro k hk
    have := hk.1; have := hk.2; omega
  · have key := forLoop_induction
      (fun b (v : List (magmaDoubleComplex R)) => v.length = val.length ∧
        ((∃ k, (rdI A.row i ≤ k ∧ k < b) ∧ rdI A.col k = rdI B.col j ∧
            (∀ k2, rdI A.row i ≤ k2 ∧ k2 < b → k < k2 → rdI A.col k2 ≠ rdI B.col j) ∧
            rdV v j = rdV A.val k) ∨
         ((∀ k, rdI A.row i ≤ k ∧ k < b → rdI A.col k ≠ rdI B.col j) ∧
            rdV v j = MAGMA_Z_MAKE 0 0)))
      (rdI A.row i) (rdI A.row (i + 1))
      (fun k val => if rdI A.col k = rdI B.col j then val.set j (rdV A.val k) else val)
      (val.set j (MAGMA_Z_MAKE 0 0)) hge
      ⟨by simp, Or.inr ⟨fun k hk => by omega, rdV_set_eq _ _ _ hj⟩⟩
      (by
        intro k hk1 hk2 t ht
        obtain ⟨hlen, hcase⟩ := ht
        by_cases h : rdI A.col k = rdI B.col j
        · simp only [h, if_true]
          refine ⟨by simp [hlen], Or.inl ⟨k, ⟨hk1, by omega⟩, h, ?_, ?_⟩⟩
          · intro k2 hk2 hlt; omega
          · exact rdV_set_eq _ _ _ (by omega)
        · simp only [h, if_false]
          refine ⟨hlen, ?_⟩
          rcases hcase with ⟨k0, hk0, hc0, hlast, hv⟩ | ⟨hnone, hv⟩
          · refine Or.inl ⟨k0, ⟨hk0.1, by omega⟩, hc0, ?_, hv⟩
            intro k2 hk2 hlt
            by_cases e : k2 = k
            · subst e; exact h
            · exact hlast k2 ⟨hk2.1, by omega⟩ hlt
          · refine Or.inr ⟨?_, hv⟩
            intro k2 hk2
            by_cases e : k2 = k
            · subst e; exact h
            · exact hnone k2 ⟨hk2.1, by omega⟩)
    exact key.2

theorem initrecursive_row_length (A B : magma_z_matrix R) (i : Nat)
    (val : List (magmaDoubleComplex R)) :
    (initrecursive_row A B i val).length = val.length := by
  unfold initrecursive_row
  apply forLoop_invariant (fun (v : List (magmaDoubleComplex R)) => v.length = val.length) _ _ _ _ rfl
  intro j _ _ t ht
  rw [initrecursive_cell_length]; exact ht

theorem initrecursive_row_other (A B : magma_z_matrix R) (i p : Nat)
    (val : List (magmaDoubleComplex R)) (hp : ¬ InRow B i p) :
    rdV (initrecursive_row A B i val) p = rdV val p := by
  unfold initrecursive_row
  apply forLoop_invariant (fun v => rdV v p = rdV val p) _ _ _ _ rfl
  intro j hj1 hj2 t ht
  rw [initrecursive_cell_other _ _ _ _ _ _ (by
    intro e; subst e; exact hp ⟨hj1, hj2⟩)]
  exact ht

theorem initrecursive_row_self (A B : magma_z_matrix R) (i p : Nat)
    (val : List (magmaDoubleComplex R)) (hp : InRow B i p) (hlen : p < val.length) :
    Transplanted A i (rdI B.col p) (rdV (initrecursive_row A B i val) p) := by
  unfold initrecursive_row
  have key := forLoop_induction
    (fun b (v : List (magmaDoubleComplex R)) => v.length = val.length ∧
      (p < b → Transplanted A i (rdI B.col p) (rdV v p)))
    (rdI B.row i) (rdI B.row (i + 1)) (fun j val => initrecursive_cell A B i j val) val
    (by have := hp.1; have := hp.2; omega)
    ⟨rfl, fun h => by have := hp.1; omega⟩
    (by
      intro j hj1 hj2 t ht
      refine ⟨by rw [initrecursive_cell_length]; exact ht.1, ?_⟩
      intro hlt
      by_cases e : j = p
      · subst e
        exact initrecursive_cell_self A B i j t (by omega)
      · rw [initrecursive_cell_other _ _ _ _ _ _ e]
        exact ht.2 (by omega))
  exact key.2 hp.2

theorem initrecursive_val (A B : magma_z_matrix R) :
    (magma_zinitrecursiveLU A B).B.val
      = forLoop 0 A.num_rows (fun i val => initrecursive_row A B i val) B.val := rfl

theorem initrecursive_spec (A B : magma_z_matrix R) (hB : WellFormed B) (i j : Nat)
    (hiA : i < A.num_rows) (hiB : i < B.num_rows) (hj : InRow B i j) :
    Transplanted A i (rdI B.col j) (rdV (magma_zinitrecursiveLU A B).B.val j) := by
  rw [initrecursive_val]
  have hjn : j < B.val.length := by
    have := hB.le_nnz (i + 1) (by omega)
    have := hj.2
    rw [hB.2.2.2.2.2]; omega
  have key := forLoop_induction
    (fun b (v : List (magmaDoubleComplex R)) => v.length = B.val.length ∧
      (i < b → Transplanted A i (rdI B.col j) (rdV v j)))
    0 A.num_rows (fun i val => initrecursive_row A B i val) B.val (Nat.zero_le _)
    ⟨rfl, fun h => by omega⟩
    (by
      intro r _ hr t ht
      refine ⟨by rw [initrecursive_row_length]; exact ht.1, ?_⟩
      intro hlt
      by_cases e : r = i
      · subst e
        exact initrecursive_row_self A B r j t hj (by omega)
      · rw [initrecursive_row_other _ _ _ _ _ (by
          intro hin
          rcases Nat.lt_or_ge r B.num_rows with h1 | h1
          · rcases Nat.lt_or_ge r i with h2 | h2
            · have := hB.mono i (by omega) (r + 1) (by omega)
              have := hin.2; have := hj.1; omega
            · have := hB.mono r (by omega) (i + 1) (by omega)
              have := hin.1; have := hj.2; omega
          · have h0 : rdI B.row (r + 1) = 0 := rdI_default _ _ (by rw [hB.1]; omega)
            have := hin.2
            omega)]
        exact ht.2 (by omega))
  exact key.2 hiA

/-! ## `magma_znonlinres` against `magma_zfrobenius` -/

theorem forLoop_congr {σ : Type} (a b : Nat) (f g : Nat → σ → σ) (s : σ)
    (h : ∀ j, a ≤ j → j < b → ∀ t, f j t = g j t) : forLoop a b f s = forLoop a b g s := by
  unfold forLoop
  apply List.foldl_ext
  intro t j hj
  rw [List.mem_range'_1] at hj
  exact h j hj.1 (by omega) t

/-! ### The rows of `csrOfRows` -/

theorem flatten_getElem?_offset {α : Type} :
    ∀ (rows : List (List α)) (i t : Nat) (hi : i < rows.length), t < (rows[i]).length →
      rows.flatten[(rows.take i).flatten.length + t]? = (rows[i])[t]? := by
  intro rows
  induction rows with
  | nil => intro i t hi; simp at hi
  | cons r rs ih =>
    intro i t hi ht
    cases i with
    | zero =>
      simp only [List.take_zero, List.flatten_nil, List.length_nil, Nat.zero_add,
        List.flatten_cons, List.getElem_cons_zero] at ht ⊢
      exact List.getElem?_append_left ht
    | succ i =>
      simp only [List.take_succ_cons, List.flatten_cons, List.length_append,
        List.getElem_cons_succ] at ht ⊢
      rw [List.getElem?_append_right (by omega)]
      have e : r.length + (List.take i rs).flatten.length + t - r.length
          = (List.take i rs).flatten.length + t := by omega
      rw [e]
      exact ih i t (by simpa using hi) ht

theorem rowOffsets_succ {α : Type} (rows : List (List α)) (i : Nat) (hi : i < rows.length) :
    rdI (rowOffsets rows) (i + 1) = rdI (rowOffsets rows) i + (rows[i]).length := by
  rw [rdI_rowOffsets _ _ (by omega), rdI_rowOffsets _ _ (by omega), List.take_succ,
    List.getElem?_eq_getElem hi, List.flatten_append, List.length_append]
  simp

theorem csrOfRows_entry (rows : List (List (Nat × magmaDoubleComplex R))) (i t : Nat)
    (hi : i < rows.length) (ht : t < (rows[i]).length) :
    rdI (csrOfRows rows).col (rdI (rowOffsets rows) i + t) = ((rows[i])[t]).1 ∧
    rdV (csrOfRows rows).val (rdI (rowOffsets rows) i + t) = ((rows[i])[t]).2 := by
  have h := flatten_getElem?_offset rows i t hi ht
  rw [← rdI_rowOffsets _ _ (by omega), List.getElem?_eq_getElem ht] at h
  constructor
  · simp only [csrOfRows]
    unfold rdI
    rw [List.getD_eq_getElem?_getD, List.getElem?_map]
    erw [h]
    rfl
  · simp only [csrOfRows]
    unfold rdV
    rw [List.getD_eq_getElem?_getD, List.getElem?_map]
    erw [h]
    rfl

theorem inRow_csrOfRows (rows : List (List (Nat × magmaDoubleComplex R))) (i k : Nat)
    (h : InRow (csrOfRows rows) i k) :
    ∃ (hi : i < rows.length) (t : Nat) (ht : t < (rows[i]).length),
      k = rdI (rowOffsets rows) i + t ∧ rdI (csrOfRows rows).col k = ((rows[i])[t]).1 ∧
      rdV (csrOfRows rows).val k = ((rows[i])[t]).2 := by
  obtain ⟨h1, h2⟩ := h
  have hi : i < rows.length := by
    by_contra hc
    have : rdI (csrOfRows rows).row (i + 1) = 0 := by
      apply rdI_default
      simp [csrOfRows, rowOffsets]
      omega
    omega
  have hsucc := rowOffsets_succ rows i hi
  have h1' : rdI (rowOffsets rows) i ≤ k := h1
  have h2' : k < rdI (rowOffsets rows) (i + 1) := h2
  obtain ⟨t, hk⟩ : ∃ t, k = rdI (rowOffsets rows) i + t := ⟨k - rdI (rowOffsets rows) i, by omega⟩
  have ht : t < (rows[i]).length := by omega
  have := csrOfRows_entry rows i t hi ht
  rw [← hk] at this
  exact ⟨hi, t, ht, hk, this.1, this.2⟩

theorem noDupRows_csrOfRows (rows : List (List (Nat × magmaDoubleComplex R)))
    (h : ∀ r ∈ rows, (r.map Prod.fst).Nodup) : NoDupRows (csrOfRows rows) := by
  intro i k1 k2 h1 h2 hc
  obtain ⟨hi, t1, ht1, e1, c1, _⟩ := inRow_csrOfRows rows i k1 h1
  obtain ⟨_, t2, ht2, e2, c2, _⟩ := inRow_csrOfRows rows i k2 h2
  rw [c1, c2] at hc
  have hnd := h (rows[i]) (List.getElem_mem _)
  have hl1 : t1 < ((rows[i]).map Prod.fst).length := by simpa using ht1
  have hl2 : t2 < ((rows[i]).map Prod.fst).length := by simpa using ht2
  have : ((rows[i]).map Prod.fst)[t1] = ((rows[i]).map Prod.fst)[t2] := by
    simpa using hc
  have := (hnd.getElem_inj_iff).1 this
  omega

/-! ### The rows of the sparse product -/

theorem mem_keys_spmm_accum (acc : List (Nat × magmaDoubleComplex R)) (c : Nat)
    (v : magmaDoubleComplex R) (x : Nat)
    (hx : x ∈ (spmm_accum acc c v).map Prod.fst) : x ∈ acc.map Prod.fst ∨ x = c := by
  induction acc with
  | nil => simp [spmm_accum] at hx; exact Or.inr hx
  | cons e rest ih =>
    unfold spmm_accum at hx
    by_cases he : e.1 = c
    · simp only [he, if_true, List.map_cons, List.mem_cons] at hx ⊢
      rcases hx with hx | hx
      · exact Or.inr hx
      · exact Or.inl (Or.inr hx)
    · simp only [he, if_false, List.map_cons, List.mem_cons] at hx ⊢
      rcases hx with hx | hx
      · exact Or.inl (Or.inl hx)
      · rcases ih hx with h | h
        · exact Or.inl (Or.inr h)
        · exact Or.inr h

theorem nodup_keys_spmm_accum (acc : List (Nat × magmaDoubleComplex R)) (c : Nat)
    (v : magmaDoubleComplex R) (h : (acc.map Prod.fst).Nodup) :
    ((spmm_accum acc c v).map Prod.fst).Nodup := by
  induction acc with
  | nil => simp [spmm_accum]
  | cons e rest ih =>
    unfold spmm_accum
    rw [List.map_cons, List.nodup_cons] at h
    by_cases he : e.1 = c
    · simp only [he, if_true, List.map_cons, List.nodup_cons]
      rw [← he]; exact h
    · simp only [he, if_false, List.map_cons, List.nodup_cons]
      refine ⟨?_, ih h.2⟩
      intro hmem
      rcases mem_keys_spmm_accum rest c v e.1 hmem with h1 | h1
      · exact h.1 h1
      · exact he h1

theorem nodup_keys_spmm_row (alpha : magmaDoubleComplex R) (A B : magma_z_matrix R)
    (i : Nat) : ((spmm_row alpha A B i).map Prod.fst).Nodup := by
  unfold spmm_row
  apply foldl_invariant
    (fun (acc : List (Nat × magmaDoubleComplex R)) => (acc.map Prod.fst).Nodup)
  · simp
  · intro e _ acc hacc
    apply foldl_invariant
      (fun (acc : List (Nat × magmaDoubleComplex R)) => (acc.map Prod.fst).Nodup) _ _ _ hacc
    intro f _ acc2 hacc2
    exact nodup_keys_spmm_accum acc2 _ _ hacc2

theorem noDupRows_spmm (alpha : magmaDoubleComplex R) (A B : magma_z_matrix R) :
    NoDupRows (magma_z_spmm alpha A B) := by
  unfold magma_z_spmm
  apply noDupRows_csrOfRows
  intro r hr
  rw [List.mem_map] at hr
  obtain ⟨i, _, rfl⟩ := hr
  exact nodup_keys_spmm_row alpha A B i


/-! ### `magma_znonlinres` against `magma_zfrobenius` -/

theorem nonlinres_A_t_val (A LU : magma_z_matrix R) :
    (magma_znonlinres_A_t A LU).val
      = forLoop 0 A.num_rows (fun i val => nonlinres_row A LU i val) A.val := rfl

theorem nonlinres_row_length (A LU : magma_z_matrix R) (i : Nat)
    (val : List (magmaDoubleComplex R)) :
    (nonlinres_row A LU i val).length = val.length := by
  unfold nonlinres_row
  apply forLoop_invariant
    (fun (v : List (magmaDoubleComplex R)) => v.length = val.length) _ _ _ _ rfl
  intro j _ _ t ht
  rw [List.length_set]; exact ht

theorem nonlinres_row_other (A LU : magma_z_matrix R) (i p : Nat)
    (val : List (magmaDoubleComplex R)) (hp : ¬ InRow A i p) :
    rdV (nonlinres_row A LU i val) p = rdV val p := by
  unfold nonlinres_row
  apply forLoop_invariant (fun v => rdV v p = rdV val p) _ _ _ _ rfl
  intro j hj1 hj2 t ht
  rw [rdV_set_ne _ _ _ _ (by intro e; subst e; exact hp ⟨hj1, hj2⟩)]
  exact ht

theorem nonlinres_row_self (A LU : magma_z_matrix R) (i p : Nat)
    (val : List (magmaDoubleComplex R)) (hp : InRow A i p) (hlen : p < val.length) :
    rdV (nonlinres_row A LU i val) p = nonlinres_newval A LU i p := by
  unfold nonlinres_row
  have key := forLoop_induction
    (fun b (v : List (magmaDoubleComplex R)) => v.length = val.length ∧
      (p < b → rdV v p = nonlinres_newval A LU i p))
    (rdI A.row i) (rdI A.row (i + 1))
    (fun j val => val.set j (nonlinres_newval A LU i j)) val
    (by have := hp.1; have := hp.2; omega)
    ⟨rfl, fun h => by have := hp.1; omega⟩
    (by
      intro j hj1 hj2 t ht
      refine ⟨by rw [List.length_set]; exact ht.1, ?_⟩
      intro hlt
      by_cases e : j = p
      · subst e
        exact rdV_set_eq _ _ _ (by omega)
      · rw [rdV_set_ne _ _ _ _ e]
        exact ht.2 (by omega))
  exact key.2 hp.2

/-- After the first loop nest of `magma_znonlinres`, position `j` of row `i` of the
copy `A_t` holds the value computed for it. -/
theorem nonlinres_A_t_spec (A LU : magma_z_matrix R) (hA : WellFormed A) (i j : Nat)
    (hi : i < A.num_rows) (hj : InRow A i j) :
    rdV (magma_znonlinres_A_t A LU).val j = nonlinres_newval A LU i j := by
  rw [nonlinres_A_t_val]
  have hjn : j < A.val.length := by
    have := hA.le_nnz (i + 1) (by omega)
    have := hj.2
    rw [hA.2.2.2.2.2]; omega
  have key := forLoop_induction
    (fun b (v : List (magmaDoubleComplex R)) => v.length = A.val.length ∧
      (i < b → rdV v j = nonlinres_newval A LU i j))
    0 A.num_rows (fun i val => nonlinres_row A LU i val) A.val (Nat.zero_le _)
    ⟨rfl, fun h => by omega⟩
    (by
      intro r _ hr t ht
      refine ⟨by rw [nonlinres_row_length]; exact ht.1, ?_⟩
      intro hlt
      by_cases e : r = i
      · subst e
        exact nonlinres_row_self A LU r j t hj (by omega)
      · rw [nonlinres_row_other _ _ _ _ _ (by
          intro hin
          rcases Nat.lt_or_ge r i with h2 | h2
          · have := hA.mono i (by omega) (r + 1) (by omega)
            have := hin.2; have := hj.1; omega
          · have := hA.mono r (by omega) (i + 1) (by omega)
            have := hin.1; have := hj.2; omega)]
        exact ht.2 (by omega))
  exact key.2 hi

/-- In a row without repeated column index the scan of `magma_zfrobenius` for one
entry of `A` adds the square of the value `magma_znonlinres` computes for it. -/
theorem frobenius_inner_eq (A LU : magma_z_matrix R) (hLU : NoDupRows LU) (i j : Nat)
    (r : R) :
    forLoop (rdI LU.row i) (rdI LU.row (i + 1)) (fun k res =>
        if rdI LU.col k = rdI A.col j then
          res + |MAGMA_Z_REAL (rdV A.val j) - MAGMA_Z_REAL (rdV LU.val k)|
            * |MAGMA_Z_REAL (rdV A.val j) - MAGMA_Z_REAL (rdV LU.val k)|
        else res) r
      = r + |MAGMA_Z_REAL (nonlinres_newval A LU i j)|
          * |MAGMA_Z_REAL (nonlinres_newval A LU i j)| := by
  unfold nonlinres_newval
  rcases Nat.lt_or_ge (rdI LU.row (i + 1)) (rdI LU.row i) with hlt | hge
  · rw [forLoop_empty _ _ _ _ (by omega), forLoop_empty _ _ _ _ (by omega)]
    simp [MAGMA_Z_REAL, MAGMA_Z_MAKE]
  · have key : ∀ b, rdI LU.row i ≤ b → b ≤ rdI LU.row (i + 1) →
        (forLoop (rdI LU.row i) b (fun k res =>
          if rdI LU.col k = rdI A.col j then
            res + |MAGMA_Z_REAL (rdV A.val j) - MAGMA_Z_REAL (rdV LU.val k)|
              * |MAGMA_Z_REAL (rdV A.val j) - MAGMA_Z_REAL (rdV LU.val k)|
          else res) r
        = r + |MAGMA_Z_REAL (forLoop (rdI LU.row i) b (fun k newval =>
            if rdI LU.col k = rdI A.col j then
              MAGMA_Z_MAKE (MAGMA_Z_REAL (rdV LU.val k) - MAGMA_Z_REAL (rdV A.val j)) 0
            else newval) (MAGMA_Z_MAKE 0 0))|
          * |MAGMA_Z_REAL (forLoop (rdI LU.row i) b (fun k newval =>
            if rdI LU.col k = rdI A.col j then
              MAGMA_Z_MAKE (MAGMA_Z_REAL (rdV LU.val k) - MAGMA_Z_REAL (rdV A.val j)) 0
            else newval) (MAGMA_Z_MAKE 0 0))|) ∧
        ((∀ k, rdI LU.row i ≤ k → k < b → rdI LU.col k ≠ rdI A.col j) →
          forLoop (rdI LU.row i) b (fun k newval =>
            if rdI LU.col k = rdI A.col j then
              MAGMA_Z_MAKE (MAGMA_Z_REAL (rdV LU.val k) - MAGMA_Z_REAL (rdV A.val j)) 0
            else newval) (MAGMA_Z_MAKE 0 0) = MAGMA_Z_MAKE 0 0) := by
      intro b
      induction b with
      | zero =>
        intro _ _
        rw [forLoop_empty _ _ _ _ (Nat.zero_le _), forLoop_empty _ _ _ _ (Nat.zero_le _)]
        simp [MAGMA_Z_REAL, MAGMA_Z_MAKE]
      | succ b ih =>
        intro h1 h2
        rcases Nat.lt_or_ge b (rdI LU.row i) with h3 | h3
        · rw [forLoop_empty _ _ _ _ (by omega), forLoop_empty _ _ _ _ (by omega)]
          simp [MAGMA_Z_REAL, MAGMA_Z_MAKE]
        · obtain ⟨ih1, ih2⟩ := ih h3 (by omega)
          rw [forLoop_succ _ _ _ _ h3, forLoop_succ _ _ _ _ h3]
          by_cases hm : rdI LU.col b = rdI A.col j
          · simp only [hm, if_true]
            constructor
            · have hnone : ∀ k, rdI LU.row i ≤ k → k < b → rdI LU.col k ≠ rdI A.col j := by
                intro k hk1 hk2 hk3
                have := hLU i k b ⟨hk1, by omega⟩ ⟨h3, by omega⟩ (by rw [hk3, hm])
                omega
              rw [ih1, ih2 hnone]
              simp only [MAGMA_Z_REAL, MAGMA_Z_MAKE, abs_zero, mul_zero, add_zero]
              rw [abs_sub_comm]
            · intro hall
              exact absurd hm (hall b h3 (by omega))
          · simp only [hm, if_false]
            refine ⟨ih1, ?_⟩
            intro hall
            exact ih2 (fun k hk1 hk2 => hall k hk1 (by omega))
    exact (key _ hge (le_refl _)).1

/-- Entered with `*res = res`, `magma_znonlinres` returns the square root of what the
loops of `magma_zfrobenius(A, L*U)` make of `res`; `magma_zfrobenius` itself starts
them from `0`. -/
theorem nonlinres_eq_frobenius_scan (sqrt : R → R) (A L U : magma_z_matrix R)
    (hA : WellFormed A) (res : R) :
    (magma_znonlinres sqrt A L U res).res
      = sqrt (magma_zfrobenius_scan A (magma_z_spmm (MAGMA_Z_MAKE 1 0) L U) res) := by
  have hP := noDupRows_spmm (MAGMA_Z_MAKE 1 0) L U
  simp only [magma_znonlinres, magma_zmtransfer, magma_zfrobenius_scan]
  congr 1
  apply forLoop_congr
  intro i _ hi t
  apply forLoop_congr
  intro j hj1 hj2 t2
  rw [frobenius_inner_eq A _ hP i j t2, nonlinres_A_t_spec A _ hA i j hi ⟨hj1, hj2⟩]

/-- With `*res = 0` at entry `magma_znonlinres` returns the norm
`magma_zfrobenius(A, L*U)` returns. -/
theorem nonlinres_zero_entry (sqrt : R → R) (A L U : magma_z_matrix R)
    (hA : WellFormed A) :
    (magma_znonlinres sqrt A L U 0).res
      = (magma_zfrobenius sqrt A (magma_z_spmm (MAGMA_Z_MAKE 1 0) L U)).res :=
  nonlinres_eq_frobenius_scan sqrt A L U hA 0

/-- The output `*LU` of `magma_znonlinres` is released on every input. -/
theorem nonlinres_LU_empty (sqrt : R → R) (A L U : magma_z_matrix R) (res : R) :
    (magma_znonlinres sqrt A L U res).LU
      = { num_rows := 0, nnz := 0, row := [], col := [], val := [] } := rfl

/-- On every input `magma_zinitguess` returns the product of the identity with the
lower triangular extraction: the scan of the released `hALU` finds no row. -/
theorem initguess_identity_scaling (sqrt : R → R) (A dAU : magma_z_matrix R) :
    (magma_zinitguess sqrt A dAU).L
      = magma_z_spmm (MAGMA_Z_MAKE 1 0)
          (magma_zmgenerator A.num_rows (MAGMA_Z_MAKE 1 0))
          (magma_zmconvert_CSR_CSRL .Magma_VALUE A) := by
  simp [magma_zinitguess, magma_zmtransfer, magma_zmfree, initguess_diag, forLoop,
    magma_zmconvert_CSR_CSRCOO, magma_z_spmm, csrOfRows, magma_zmconvert_CSR_CSRL,
    magma_zmgenerator]

/-! ## The routines on the 3x3 identity -/

theorem spmm_identity3 :
    magma_z_spmm (MAGMA_Z_MAKE 1 0) (identity3 R) (identity3 R) = identity3 R := by
  simp [magma_z_spmm, csrOfRows, spmm_row, rowEntries, identity3, rdI, rdV, List.range,
    List.range.loop, List.range', spmm_accum, MAGMA_Z_MUL, MAGMA_Z_MAKE, rowOffsets]

theorem convert_identity3 :
    magma_zmconvert_CSR_CSRL .Magma_UNITY (identity3 R) = identity3 R := by
  simp [magma_zmconvert_CSR_CSRL, csrOfRows, rowEntries, identity3, rdI, rdV, List.range,
    List.range.loop, List.range', lowerEntry, MAGMA_Z_MAKE, rowOffsets]

theorem zilures_identity3 (sqrt : R → R) (LL : magma_z_matrix R) (res nonlinres : R) :
    (magma_zilures sqrt (identity3 R) (identity3 R) (identity3 R) LL res nonlinres).res
      = sqrt res ∧
    (magma_zilures sqrt (identity3 R) (identity3 R) (identity3 R) LL res nonlinres).nonlinres
      = sqrt nonlinres := by
  have h1 : magma_zilures_LL (identity3 R) LL = (identity3 R, []) := by
    have : rdI (identity3 R).row 1 = 1 := by simp [identity3, rdI]
    simp [magma_zilures_LL, this, convert_identity3]
  simp only [magma_zilures, h1, magma_zmtransfer, spmm_identity3]
  simp [residual_scan, residual_total, forLoop, identity3, rdI, rdV, List.range',
    MAGMA_Z_MAKE, MAGMA_Z_REAL]

/-! ## The claims about the sparse utilities -/

/-- C1, as stated, fails: for the CSR matrix with the single row `(0 ↦ 1), (0 ↦ 2)`
(one column index stored twice) `magma_zfrobenius(A, A)` over the reals returns
`sqrt 2`, which is not `0`. -/
theorem C1_frobenius_self_counterexample :
    (magma_zfrobenius Real.sqrt (dupRow ℝ) (dupRow ℝ)).res = Real.sqrt 2 ∧
    (magma_zfrobenius Real.sqrt (dupRow ℝ) (dupRow ℝ)).res ≠ 0 ∧
    WellFormed (dupRow ℝ) := by
  have h : (magma_zfrobenius Real.sqrt (dupRow ℝ) (dupRow ℝ)).res = Real.sqrt 2 := by
    simp [magma_zfrobenius, magma_zfrobenius_scan, forLoop, dupRow, rdI, rdV, MAGMA_Z_REAL,
      MAGMA_Z_MAKE, List.range']
    norm_num
  refine ⟨h, ?_, ?_⟩
  · rw [h]
    exact (Real.sqrt_pos.mpr (by norm_num)).ne'
  · simp [WellFormed, dupRow, rdI]

/-- C1, amended: with arithmetic taken over the reals (every value finite, no rounding;
`R` is any exact ordered field), if entries of `A` that lie in the same row and carry
the same column index have the same real part (in particular if no row of `A` stores a
column index twice), then `magma_zfrobenius(A, A)` returns residual `0` and the success
status. -/
theorem C1_frobenius_self_zero (sqrt : R → R) (hsqrt : sqrt 0 = 0) (A : magma_z_matrix R)
    (hA : ∀ i j k, i < A.num_rows → InRow A i j → InRow A i k →
      rdI A.col k = rdI A.col j → (rdV A.val j).re = (rdV A.val k).re) :
    (magma_zfrobenius sqrt A A).res = 0 ∧ (magma_zfrobenius sqrt A A).info = MAGMA_SUCCESS := by
  refine ⟨?_, rfl⟩
  have hsum : magma_zfrobenius_scan A A 0 = 0 := by
    unfold magma_zfrobenius_scan
    apply forLoop_invariant (fun r => r = 0) _ _ _ _ rfl
    intro i _ hi t ht
    apply forLoop_invariant (fun r => r = 0) _ _ _ _ ht
    intro j hj1 hj2 t ht
    apply forLoop_invariant (fun r => r = 0) _ _ _ _ ht
    intro k hk1 hk2 t ht
    by_cases hc : rdI A.col k = rdI A.col j
    · have := hA i j k hi ⟨hj1, hj2⟩ ⟨hk1, hk2⟩ hc
      simp [hc, MAGMA_Z_REAL, this, ht]
    · simp [hc, ht]
  simp [magma_zfrobenius, hsum, hsqrt]

/-- C1, amended, at the 3x3 identity over the rationals. -/
theorem C1_frobenius_self_zero_witness :
    (magma_zfrobenius Rat.sqrt (identity3 ℚ) (identity3 ℚ)).res = 0 ∧
    (magma_zfrobenius Rat.sqrt (identity3 ℚ) (identity3 ℚ)).info = MAGMA_SUCCESS :=
  C1_frobenius_self_zero Rat.sqrt (by simp [Rat.sqrt]) (identity3 ℚ) (by
    intro i j k hi hj hk _
    simp only [identity3, InRow, rdI] at hi hj hk
    have hjk : j = k := by
      interval_cases i <;> simp at hj hk <;> omega
    rw [hjk])

/-- C2: for `A = L = U` the 3x3 identity, `magma_zilures` adds nothing to `*res` and
`*nonlinres`, which it never initialises: entered with both at `1` it returns residual
`1` and nonlinear residual `1`, not `0`; it returns `0` and `0` only when both are `0`
at entry. -/
theorem C2_ilures_identity_entry_value :
    (magma_zilures Real.sqrt (identity3 ℝ) (identity3 ℝ) (identity3 ℝ) (identity3 ℝ) 1 1).res = 1 ∧
    (magma_zilures Real.sqrt (identity3 ℝ) (identity3 ℝ) (identity3 ℝ) (identity3 ℝ) 1 1).nonlinres = 1 ∧
    (magma_zilures Real.sqrt (identity3 ℝ) (identity3 ℝ) (identity3 ℝ) (identity3 ℝ) 0 0).res = 0 ∧
    (magma_zilures Real.sqrt (identity3 ℝ) (identity3 ℝ) (identity3 ℝ) (identity3 ℝ) 0 0).nonlinres = 0 := by
  have h1 := zilures_identity3 Real.sqrt (identity3 ℝ) 1 1
  have h0 := zilures_identity3 Real.sqrt (identity3 ℝ) 0 0
  rw [Real.sqrt_one] at h1
  rw [Real.sqrt_zero] at h0
  exact ⟨h1.1, h1.2, h0.1, h0.2⟩

/-- C3: for every well-formed strictly lower triangular CSR matrix `L`, a second call of
`magma_zmLdiagadd` returns the matrix the first call returned (same sizes, row
offsets, column indices and values), and prints nothing. -/
theorem C3_diagadd_idempotent (L LL LL2 : magma_z_matrix R) (hL : WellFormed L)
    (hs : StrictlyLower L) :
    (magma_zmLdiagadd (magma_zmLdiagadd L LL).L LL2).L = (magma_zmLdiagadd L LL).L ∧
    (magma_zmLdiagadd (magma_zmLdiagadd L LL).L LL2).printed = [] := by
  have h1 := strictlyLower_row1 L hL hs
  obtain ⟨⟨hn, hnnz, hrow, hent⟩, hwf⟩ := zmLdiagadd_strict L LL hL h1
  generalize (magma_zmLdiagadd L LL).L = L1 at hn hnnz hrow hent hwf ⊢
  rcases Nat.eq_zero_or_pos L.num_rows with h0 | hpos
  · -- no rows: the second call rebuilds the same empty arrays
    have hr1 : rdI L1.row 1 = 0 := by
      apply rdI_default
      rw [hwf.1, hn, h0]
    have h2 := zmLdiagadd_strict L1 LL2 hwf hr1
    obtain ⟨⟨hn2, hnnz2, hrow2, _⟩, hwf2⟩ := h2
    have hp : (magma_zmLdiagadd L1 LL2).printed = [] := by
      simp [magma_zmLdiagadd, hr1]
    refine ⟨?_, hp⟩
    generalize (magma_zmLdiagadd L1 LL2).L = M at hn2 hnnz2 hrow2 hwf2 ⊢
    have e1 : L1.num_rows = 0 := by omega
    have e2 : M.num_rows = 0 := by omega
    have e3 : L1.nnz = 0 := by
      have := hwf.2.2.1; rw [e1, hwf.2.1] at this; exact this.symm
    have e4 : M.nnz = 0 := by omega
    have e5 : ∀ (X : magma_z_matrix R), WellFormed X → X.num_rows = 0 → X.row = [0] := by
      intro X hX hX0
      have hl := hX.1
      have hz := hX.2.1
      rw [hX0] at hl
      match hrX : X.row, hl with
      | [a], _ =>
        rw [hrX] at hz
        simp [rdI] at hz
        rw [hz]
    have e6 := e5 L1 hwf e1
    have e7 := e5 M hwf2 e2
    have e8 : L1.col = [] := List.eq_nil_of_length_eq_zero (by rw [hwf.2.2.2.2.1, e3])
    have e9 : L1.val = [] := List.eq_nil_of_length_eq_zero (by rw [hwf.2.2.2.2.2, e3])
    have e10 : M.col = [] := List.eq_nil_of_length_eq_zero (by rw [hwf2.2.2.2.2.1, e4])
    have e11 : M.val = [] := List.eq_nil_of_length_eq_zero (by rw [hwf2.2.2.2.2.2, e4])
    cases L1; cases M
    simp only at e1 e2 e3 e4 e6 e7 e8 e9 e10 e11
    simp only [magma_z_matrix.mk.injEq]
    exact ⟨e2.trans e1.symm, e4.trans e3.symm, e7.trans e6.symm, e10.trans e8.symm,
      e11.trans e9.symm⟩
  · -- the first row now holds the unit diagonal alone
    have hr1 : rdI L1.row 1 = 1 := by
      rw [hrow 1 (by omega), h1]
    have hfix : magma_zmconvert_CSR_CSRL .Magma_UNITY L1 = L1 := by
      apply convert_unity_fixed L1 hwf
      intro i hi e he
      rw [hn] at hi
      rw [hent i hi, List.mem_append] at he
      rcases he with he | he
      · left
        obtain ⟨j, hj, rfl⟩ := mem_rowEntries he
        have := hL.mono L.num_rows (le_refl _) (i + 1) (by omega)
        rw [hL.2.2.1] at this
        exact hs i hi j (by have := hj.2; omega) hj
      · right
        simpa using he
    simp [magma_zmLdiagadd, hr1, hfix, magma_zmtransfer]

/-- C3 at a strictly lower triangular 3x3 matrix. -/
theorem C3_diagadd_idempotent_witness :
    WellFormed (lower3 ℚ) ∧ StrictlyLower (lower3 ℚ) ∧
    (magma_zmLdiagadd (magma_zmLdiagadd (lower3 ℚ) (single ℚ 0)).L (single ℚ 0)).L
      = (magma_zmLdiagadd (lower3 ℚ) (single ℚ 0)).L ∧
    (magma_zmLdiagadd (magma_zmLdiagadd (lower3 ℚ) (single ℚ 0)).L (single ℚ 0)).printed = [] :=
  ⟨by decide, by decide,
    C3_diagadd_idempotent (lower3 ℚ) (single ℚ 0) (single ℚ 0) (by decide) (by decide)⟩

/-- C4: for every well-formed CSR matrix `L` with `row[1] == 0`, the matrix produced by
`magma_zmLdiagadd`, and the matrix `LL` produced by the same step of `magma_zilures`,
has the rows of `L`, `nnz + num_rows` entries, row offsets `row[i] + i` for every
`i <= num_rows`, and in row `i` the entries of row `i` of `L` in their order followed
by the one entry with column index `i` and value `1+0i`. -/
theorem C4_diagadd_strict (L LL LL2 : magma_z_matrix R) (hL : WellFormed L)
    (h1 : rdI L.row 1 = 0) :
    DiagAdded L (magma_zmLdiagadd L LL).L ∧ DiagAdded L (magma_zilures_LL L LL2).1 :=
  ⟨(zmLdiagadd_strict L LL hL h1).1, (zilures_LL_strict L LL2 hL h1).1⟩

/-- C4 at a strictly lower triangular 3x3 matrix. -/
theorem C4_diagadd_strict_witness :
    WellFormed (lower3 ℚ) ∧ rdI (lower3 ℚ).row 1 = 0 ∧
    DiagAdded (lower3 ℚ) (magma_zmLdiagadd (lower3 ℚ) (single ℚ 0)).L ∧
    DiagAdded (lower3 ℚ) (magma_zilures_LL (lower3 ℚ) (single ℚ 0)).1 :=
  ⟨by decide, by decide,
    C4_diagadd_strict (lower3 ℚ) (single ℚ 0) (single ℚ 0) (by decide) (by decide)⟩

/-- C5: for every well-formed source `A` and well-formed target `B` with the same number
of rows (the two fill-in levels of one matrix, so that no read leaves an array), after
`magma_zinitrecursiveLU` every entry position `j` of every row `i` of `B` holds the
value of the entry of row `i` of `A` whose column index equals `B.col[j]` (the last
one, should the row store several) if such an entry exists, and `0` otherwise; the
pattern of `B` is unchanged and the status is success. -/
theorem C5_recursive_fill (A B : magma_z_matrix R) (hA : WellFormed A) (hB : WellFormed B)
    (hrows : A.num_rows = B.num_rows) (i j : Nat) (hi : i < B.num_rows)
    (hj : InRow B i j) :
    Transplanted A i (rdI B.col j) (rdV (magma_zinitrecursiveLU A B).B.val j) ∧
    (magma_zinitrecursiveLU A B).B.num_rows = B.num_rows ∧
    (magma_zinitrecursiveLU A B).B.nnz = B.nnz ∧
    (magma_zinitrecursiveLU A B).B.row = B.row ∧
    (magma_zinitrecursiveLU A B).B.col = B.col ∧
    (magma_zinitrecursiveLU A B).info = MAGMA_SUCCESS := by
  have _ := hA
  exact ⟨initrecursive_spec A B hB i j (by omega) hi hj, rfl, rfl, rfl, rfl, rfl⟩

/-- C5 at a strictly lower triangular 3x3 source and the full lower triangular pattern
as target, row 2, position 3 (column 0). -/
theorem C5_recursive_fill_witness :
    WellFormed (lower3 ℚ) ∧ WellFormed (lower3Fill ℚ) ∧
    (lower3 ℚ).num_rows = (lower3Fill ℚ).num_rows ∧ 2 < (lower3Fill ℚ).num_rows ∧
    InRow (lower3Fill ℚ) 2 3 ∧
    Transplanted (lower3 ℚ) 2 (rdI (lower3Fill ℚ).col 3)
      (rdV (magma_zinitrecursiveLU (lower3 ℚ) (lower3Fill ℚ)).B.val 3) :=
  ⟨by decide, by decide, by decide, by decide, by decide,
    (C5_recursive_fill (lower3 ℚ) (lower3Fill ℚ) (by decide) (by decide) (by decide) 2 3
      (by decide) (by decide)).1⟩

/-- C7: the accumulation of `magma_znonlinres` starts from the value `*res` has at
entry, that of `magma_zfrobenius` from `0`.  With `A = (2)`, `L = U = (1)` (so
`L*U = (1)`) and `*res = 3` at entry, `magma_znonlinres` returns `sqrt (3 + 1) = 2`
while `magma_zfrobenius(A, L*U)` returns `sqrt 1 = 1`. -/
theorem C7_nonlinres_entry_value :
    (magma_znonlinres Real.sqrt (single ℝ 2) (single ℝ 1) (single ℝ 1) 3).res = 2 ∧
    (magma_zfrobenius Real.sqrt (single ℝ 2)
      (magma_z_spmm (MAGMA_Z_MAKE 1 0) (single ℝ 1) (single ℝ 1))).res = 1 := by
  have h4 : Real.sqrt 4 = 2 := by
    rw [show (4 : ℝ) = 2 ^ 2 by norm_num]
    exact Real.sqrt_sq (by norm_num)
  constructor
  · simp [magma_znonlinres, magma_znonlinres_A_t, magma_z_spmm, csrOfRows, spmm_row,
      rowEntries, single, rdI, rdV, List.range, List.range.loop, List.range', spmm_accum,
      MAGMA_Z_MUL, MAGMA_Z_MAKE, rowOffsets, forLoop, magma_zmtransfer, MAGMA_Z_REAL]
    norm_num [h4]
  · simp [magma_zfrobenius, magma_zfrobenius_scan, magma_z_spmm, csrOfRows, spmm_row,
      rowEntries, single, rdI, rdV, List.range, List.range.loop, List.range', spmm_accum,
      MAGMA_Z_MUL, MAGMA_Z_MAKE, rowOffsets, forLoop, MAGMA_Z_REAL]
    norm_num

/-- C8: `magma_znonlinres` stores the pattern-restricted residual in its local copy
`A_t` of `A` and releases both `A_t` and `*LU` before it returns.  With `A = (2)` and
`L = U = (1)` the residual structure is the 1x1 matrix `(-1)`, held by `A_t`; the
output `*LU` holds no rows and no entries. -/
theorem C8_nonlinres_LU_released (sqrt : R → R) (res : R) :
    (magma_znonlinres sqrt (single R 2) (single R 1) (single R 1) res).LU
      = { num_rows := 0, nnz := 0, row := [], col := [], val := [] } ∧
    magma_znonlinres_A_t (single R 2) (magma_z_spmm (MAGMA_Z_MAKE 1 0) (single R 1) (single R 1))
      = { num_rows := 1, nnz := 1, row := [0, 1], col := [0], val := [MAGMA_Z_MAKE (-1) 0] } := by
  refine ⟨rfl, ?_⟩
  simp [magma_znonlinres_A_t, magma_z_spmm, csrOfRows, spmm_row, rowEntries, single, rdI, rdV,
    List.range, List.range.loop, List.range', spmm_accum, MAGMA_Z_MUL, MAGMA_Z_MAKE, rowOffsets,
    forLoop, magma_zmtransfer, MAGMA_Z_REAL]
  norm_num

/-- C9: `magma_zinitguess` releases the product `hALU` before the loop that reads its
diagonal, so the diagonal matrix stays the identity and the routine returns the lower
triangular extraction unscaled, whatever the never-assigned operand `dAU` holds.  With
`A` having the single entry `2` at (1,0) the result is `A` itself; the scan of the
product `AL * AL^T = diag(0, 4)` before its release gives `D = diag(1, 1/2)`, for
which the claim asks the entry `1`. -/
theorem C9_initguess_unscaled :
    (∀ (sqrt : ℝ → ℝ) (dAU : magma_z_matrix ℝ),
      (magma_zinitguess sqrt (lowerTwo ℝ) dAU).L = lowerTwo ℝ) ∧
    initguess_diag Real.sqrt
        (magma_z_spmm (MAGMA_Z_MAKE 1 0) (lowerTwo ℝ) (lowerTwoT ℝ))
        (magma_zmgenerator 2 (MAGMA_Z_MAKE 1 0)).val
      = [MAGMA_Z_MAKE 1 0, MAGMA_Z_MAKE (1 / 2) 0] := by
  constructor
  · intro sqrt dAU
    simp [magma_zinitguess, magma_zmconvert_CSR_CSRL, magma_zmconvert_CSR_CSRCOO, magma_z_spmm,
      csrOfRows, spmm_row, rowEntries, lowerTwo, rdI, rdV, List.range, List.range.loop,
      List.range', spmm_accum, MAGMA_Z_MUL, MAGMA_Z_MAKE, rowOffsets, forLoop, magma_zmtransfer,
      MAGMA_Z_REAL, magma_zmgenerator, magma_zmfree, initguess_diag, lowerEntry]
  · simp [magma_z_spmm, csrOfRows, spmm_row, rowEntries, lowerTwo, lowerTwoT, rdI, rdV,
      List.range, List.range.loop, List.range', spmm_accum, MAGMA_Z_MUL, MAGMA_Z_MAKE,
      rowOffsets, forLoop, MAGMA_Z_REAL, magma_zmgenerator, initguess_diag]

/-- C10: when `L.row[1]` is neither `0` nor `1`, `magma_zmLdiagadd` and `magma_zilures`
print the error message and still return `MAGMA_SUCCESS`, the status they return for
every input. -/
theorem C10_violation_not_propagated (sqrt : R → R) (A L U LL : magma_z_matrix R)
    (res nonlinres : R) (h0 : rdI L.row 1 ≠ 0) (h1 : rdI L.row 1 ≠ 1) :
    (magma_zmLdiagadd L LL).printed = [diagadd_error] ∧
    (magma_zmLdiagadd L LL).info = MAGMA_SUCCESS ∧
    (magma_zilures sqrt A L U LL res nonlinres).printed = [diagadd_error] ∧
    (magma_zilures sqrt A L U LL res nonlinres).info = MAGMA_SUCCESS ∧
    (∀ (L2 LL2 : magma_z_matrix R), (magma_zmLdiagadd L2 LL2).info = MAGMA_SUCCESS) ∧
    (∀ (A2 L2 U2 LL2 : magma_z_matrix R) (r n : R),
      (magma_zilures sqrt A2 L2 U2 LL2 r n).info = MAGMA_SUCCESS) := by
  refine ⟨?_, rfl, ?_, rfl, fun _ _ => rfl, fun _ _ _ _ _ _ => rfl⟩
  · simp [magma_zmLdiagadd, h0, h1]
  · simp [magma_zilures, magma_zilures_LL, h0, h1]

/-- C10 at a matrix whose first row stores two entries. -/
theorem C10_violation_not_propagated_witness :
    rdI (dupRow ℚ).row 1 ≠ 0 ∧ rdI (dupRow ℚ).row 1 ≠ 1 ∧
    (magma_zmLdiagadd (dupRow ℚ) (dupRow ℚ)).printed = [diagadd_error] ∧
    (magma_zilures Rat.sqrt (dupRow ℚ) (dupRow ℚ) (dupRow ℚ) (dupRow ℚ) 0 0).info
      = MAGMA_SUCCESS :=
  have h := C10_violation_not_propagated Rat.sqrt (dupRow ℚ) (dupRow ℚ) (dupRow ℚ) (dupRow ℚ)
    0 0 (by decide) (by decide)
  ⟨by decide, by decide, h.1, h.2.2.2.1⟩

/-! ## `magma_zfrobenius` as a sum -/

theorem foldl_add_sum {α : Type} (f : R → α → R) (g : α → R) :
    ∀ (l : List α) (r : R), (∀ x ∈ l, ∀ t, f t x = t + g x) →
      l.foldl f r = r + (l.map g).sum := by
  intro l
  induction l with
  | nil => intro r _; simp
  | cons x xs ih =>
    intro r h
    rw [List.foldl_cons, h x (List.mem_cons_self _ _),
      ih _ (fun y hy t => h y (List.mem_cons_of_mem _ hy) t), List.map_cons, List.sum_cons,
      add_assoc]

/-- A loop that adds `g j` in iteration `j` adds the sum of the `g j`. -/
theorem forLoop_add_sum (a b : Nat) (body : Nat → R → R) (g : Nat → R) (r : R)
    (h : ∀ j, a ≤ j → j < b → ∀ t, body j t = t + g j) :
    forLoop a b body r = r + ((List.range' a (b - a)).map g).sum := by
  unfold forLoop
  apply foldl_add_sum
  intro j hj t
  rw [List.mem_range'_1] at hj
  exact h j hj.1 (by omega) t

/-- Two nested sums over lists may be exchanged. -/
theorem sum_map_sum_comm {α β : Type} (f : α → β → R) (l1 : List α) (l2 : List β) :
    (l1.map (fun x => (l2.map (fun y => f x y)).sum)).sum
      = (l2.map (fun y => (l1.map (fun x => f x y)).sum)).sum := by
  induction l1 with
  | nil => simp
  | cons x xs ih =>
    simp only [List.map_cons, List.sum_cons]
    rw [ih, ← List.sum_map_add]

/-- The loops of `magma_zfrobenius` add the terms of all pairs of positions of the
same row. -/
theorem frobenius_scan_eq_sum (A B : magma_z_matrix R) (r : R) :
    magma_zfrobenius_scan A B r
      = r + ((List.range' 0 (A.num_rows - 0)).map (fun i =>
          ((rowPositions A i).map (fun j =>
            ((rowPositions B i).map (fun k => frobenius_term A B j k)).sum)).sum)).sum := by
  unfold magma_zfrobenius_scan
  apply forLoop_add_sum
  intro i _ _ t
  apply forLoop_add_sum
  intro j _ _ t2
  apply forLoop_add_sum
  intro k _ _ t3
  unfold frobenius_term
  by_cases h : rdI B.col k = rdI A.col j
  · simp only [h, if_true]
  · simp only [h, if_false, add_zero]

theorem frobenius_term_comm (A B : magma_z_matrix R) (j k : Nat) :
    frobenius_term A B j k = frobenius_term B A k j := by
  unfold frobenius_term
  by_cases h : rdI B.col k = rdI A.col j
  · rw [if_pos h, if_pos h.symm, abs_sub_comm]
  · rw [if_neg h, if_neg (fun e => h e.symm)]

/-! ## The two norms of `magma_zicres` -/

theorem sqRe_nonneg (v : magmaDoubleComplex R) : 0 ≤ sqRe v :=
  mul_nonneg (abs_nonneg _) (abs_nonneg _)

theorem wellFormed_csrOfRows (rows : List (List (Nat × magmaDoubleComplex R))) :
    WellFormed (csrOfRows rows) := by
  refine ⟨?_, ?_, ?_, ?_, ?_, ?_⟩
  · simp [csrOfRows, rowOffsets]
  · show rdI (rowOffsets rows) 0 = 0
    rw [rdI_rowOffsets _ _ (Nat.zero_le _)]
    simp
  · show rdI (rowOffsets rows) rows.length = rows.flatten.length
    rw [rdI_rowOffsets _ _ (le_refl _)]
    simp
  · intro i hi
    show rdI (rowOffsets rows) i ≤ rdI (rowOffsets rows) (i + 1)
    rw [rowOffsets_succ rows i hi]
    omega
  · show (rows.flatten.map Prod.fst).length = rows.flatten.length
    exact List.length_map _ _
  · show (rows.flatten.map Prod.snd).length = rows.flatten.length
    exact List.length_map _ _

/-- The second loop nest adds the squares of all stored values, each once. -/
theorem residual_total_eq (M : magma_z_matrix R) (h0 : rdI M.row 0 = 0)
    (hm : ∀ i, i < M.num_rows → rdI M.row i ≤ rdI M.row (i + 1)) (r : R) :
    residual_total M r
      = r + (Finset.range (rdI M.row M.num_rows)).sum (fun p => sqRe (rdV M.val p)) := by
  unfold residual_total
  apply forLoop_induction
    (fun i (t : R) => t = r + (Finset.range (rdI M.row i)).sum (fun p => sqRe (rdV M.val p)))
    0 M.num_rows _ _ (Nat.zero_le _)
  · rw [h0]; simp
  · intro i _ hi t ht
    apply forLoop_induction
      (fun j (u : R) => u = r + (Finset.range j).sum (fun p => sqRe (rdV M.val p)))
      (rdI M.row i) (rdI M.row (i + 1)) _ _ (hm i hi) ht
    intro j _ _ u hu
    rw [hu, Finset.sum_range_succ, add_assoc]
    rfl

theorem scan_inner_step (A LU : magma_z_matrix R) (hLU : WellFormed LU) (nl0 : R)
    (i j k : Nat) (hi : i < LU.num_rows)
    (hA : ∀ j1 j2, InRow A i j1 → InRow A i j2 → rdI A.col j1 = rdI A.col j2 → j1 = j2)
    (hj : InRow A i j) (hk : InRow LU i k) (s : ResidualState R)
    (h : ScanInv A LU nl0 i j k s) :
    ScanInv A LU nl0 i j (k + 1)
      (if rdI LU.col k = rdI A.col j then
        { val := s.val.set k
            (MAGMA_Z_MAKE (MAGMA_Z_REAL (rdV s.val k) - MAGMA_Z_REAL (rdV A.val j)) 0),
          nonlinres := s.nonlinres
            + |MAGMA_Z_REAL (MAGMA_Z_MAKE
                (MAGMA_Z_REAL (rdV s.val k) - MAGMA_Z_REAL (rdV A.val j)) 0)|
              * |MAGMA_Z_REAL (MAGMA_Z_MAKE
                (MAGMA_Z_REAL (rdV s.val k) - MAGMA_Z_REAL (rdV A.val j)) 0)| }
      else s) := by
  obtain ⟨hlen, T, hsum, hT⟩ := h
  by_cases hmatch : rdI LU.col k = rdI A.col j
  · rw [if_pos hmatch]
    have hkT : k ∉ T := by
      intro hin
      rcases hT k hin with h1 | ⟨_, ⟨j2, hj2a, hj2b, hj2c⟩ | ⟨h3, _⟩⟩
      · have := hk.1; omega
      · have := hA j2 j ⟨hj2a, by have := hj.2; omega⟩ hj (by rw [hj2c, hmatch])
        omega
      · omega
    have hklen : k < s.val.length := by
      have := hLU.le_nnz (i + 1) (by omega)
      have := hk.2
      rw [hlen, hLU.2.2.2.2.2]; omega
    refine ⟨by simp [hlen], insert k T, ?_, ?_⟩
    · rw [Finset.sum_insert hkT]
      simp only []
      rw [rdV_set_eq _ _ _ hklen, hsum]
      have hrest : T.sum (fun p => sqRe (rdV (s.val.set k
            (MAGMA_Z_MAKE (MAGMA_Z_REAL (rdV s.val k) - MAGMA_Z_REAL (rdV A.val j)) 0)) p))
          = T.sum (fun p => sqRe (rdV s.val p)) := by
        apply Finset.sum_congr rfl
        intro p hp
        rw [rdV_set_ne _ _ _ _ (by intro e; subst e; exact hkT hp)]
      rw [hrest]
      unfold sqRe
      ring
    · intro p hp
      rw [Finset.mem_insert] at hp
      rcases hp with rfl | hp
      · exact Or.inr ⟨hk, Or.inr ⟨by omega, hmatch⟩⟩
      · rcases hT p hp with h1 | ⟨h2, h3 | ⟨h4, h5⟩⟩
        · exact Or.inl h1
        · exact Or.inr ⟨h2, Or.inl h3⟩
        · exact Or.inr ⟨h2, Or.inr ⟨by omega, h5⟩⟩
  · rw [if_neg hmatch]
    refine ⟨hlen, T, hsum, ?_⟩
    intro p hp
    rcases hT p hp with h1 | ⟨h2, h3 | ⟨h4, h5⟩⟩
    · exact Or.inl h1
    · exact Or.inr ⟨h2, Or.inl h3⟩
    · exact Or.inr ⟨h2, Or.inr ⟨by omega, h5⟩⟩

theorem scan_middle_step (A LU : magma_z_matrix R) (hLU : WellFormed LU) (nl0 : R)
    (i j : Nat) (hi : i < LU.num_rows)
    (hA : ∀ j1 j2, InRow A i j1 → InRow A i j2 → rdI A.col j1 = rdI A.col j2 → j1 = j2)
    (hj : InRow A i j) (s : ResidualState R)
    (h : ScanInv A LU nl0 i j (rdI LU.row i) s) :
    ScanInv A LU nl0 i (j + 1) (rdI LU.row i)
      (forLoop (rdI LU.row i) (rdI LU.row (i + 1)) (fun k s =>
        if rdI LU.col k = rdI A.col j then
          { val := s.val.set k
              (MAGMA_Z_MAKE (MAGMA_Z_REAL (rdV s.val k) - MAGMA_Z_REAL (rdV A.val j)) 0),
            nonlinres := s.nonlinres
              + |MAGMA_Z_REAL (MAGMA_Z_MAKE
                  (MAGMA_Z_REAL (rdV s.val k) - MAGMA_Z_REAL (rdV A.val j)) 0)|
                * |MAGMA_Z_REAL (MAGMA_Z_MAKE
                  (MAGMA_Z_REAL (rdV s.val k) - MAGMA_Z_REAL (rdV A.val j)) 0)| }
        else s) s) := by
  have key := forLoop_induction (fun k (t : ResidualState R) => ScanInv A LU nl0 i j k t)
    (rdI LU.row i) (rdI LU.row (i + 1)) _ s (hLU.2.2.2.1 i hi) h
    (fun k hk1 hk2 t ht => scan_inner_step A LU hLU nl0 i j k hi hA hj ⟨hk1, hk2⟩ t ht)
  obtain ⟨hlen, T, hsum, hT⟩ := key
  refine ⟨hlen, T, hsum, ?_⟩
  intro p hp
  rcases hT p hp with h1 | ⟨h2, ⟨j2, h3, h4, h5⟩ | ⟨_, h7⟩⟩
  · exact Or.inl h1
  · exact Or.inr ⟨h2, Or.inl ⟨j2, h3, by omega, h5⟩⟩
  · exact Or.inr ⟨h2, Or.inl ⟨j, hj.1, by omega, h7.symm⟩⟩

/-- The invariant of the scan between two rows: only positions of earlier rows of `LU`
have been replaced. -/
theorem scan_outer_step (A LU : magma_z_matrix R) (hLU : WellFormed LU) (nl0 : R)
    (i : Nat) (hi : i < LU.num_rows)
    (hA : ∀ j1 j2, InRow A i j1 → InRow A i j2 → rdI A.col j1 = rdI A.col j2 → j1 = j2)
    (s : ResidualState R) (h : ScanInv A LU nl0 i (rdI A.row i) (rdI LU.row i) s) :
    ScanInv A LU nl0 (i + 1) (rdI A.row (i + 1)) (rdI LU.row (i + 1))
      (forLoop (rdI A.row i) (rdI A.row (i + 1)) (fun j s =>
        forLoop (rdI LU.row i) (rdI LU.row (i + 1)) (fun k s =>
          if rdI LU.col k = rdI A.col j then
            { val := s.val.set k
                (MAGMA_Z_MAKE (MAGMA_Z_REAL (rdV s.val k) - MAGMA_Z_REAL (rdV A.val j)) 0),
              nonlinres := s.nonlinres
                + |MAGMA_Z_REAL (MAGMA_Z_MAKE
                    (MAGMA_Z_REAL (rdV s.val k) - MAGMA_Z_REAL (rdV A.val j)) 0)|
                  * |MAGMA_Z_REAL (MAGMA_Z_MAKE
                    (MAGMA_Z_REAL (rdV s.val k) - MAGMA_Z_REAL (rdV A.val j)) 0)| }
          else s) s) s) := by
  have hmono := hLU.2.2.2.1 i hi
  have close : ∀ (j : Nat) (t : ResidualState R),
      ScanInv A LU nl0 i j (rdI LU.row i) t →
      ScanInv A LU nl0 (i + 1) (rdI A.row (i + 1)) (rdI LU.row (i + 1)) t := by
    intro j t ht
    obtain ⟨hlen, T, hsum, hT⟩ := ht
    refine ⟨hlen, T, hsum, ?_⟩
    intro p hp
    rcases hT p hp with h1 | ⟨h2, _⟩
    · exact Or.inl (by omega)
    · exact Or.inl h2.2
  rcases Nat.lt_or_ge (rdI A.row (i + 1)) (rdI A.row i) with hlt | hge
  · rw [forLoop_empty _ _ _ _ (by omega)]
    exact close _ s h
  · have key := forLoop_induction
      (fun j (t : ResidualState R) => ScanInv A LU nl0 i j (rdI LU.row i) t)
      (rdI A.row i) (rdI A.row (i + 1)) _ s hge h
      (fun j hj1 hj2 t ht => scan_middle_step A LU hLU nl0 i j hi hA ⟨hj1, hj2⟩ t ht)
    exact close _ _ key

/-- After the scan `*nonlinres` is its entry value plus the squares of the values at
some of the positions of `LU`. -/
theorem residual_scan_spec (A LU : magma_z_matrix R) (hLU : WellFormed LU)
    (hrows : A.num_rows ≤ LU.num_rows)
    (hA : ∀ i, i < A.num_rows → ∀ j1 j2, InRow A i j1 → InRow A i j2 →
      rdI A.col j1 = rdI A.col j2 → j1 = j2) (nl0 : R) :
    ∃ T : Finset Nat, T ⊆ Finset.range LU.nnz ∧
      (residual_scan A LU { val := LU.val, nonlinres := nl0 }).nonlinres
        = nl0 + T.sum (fun p => sqRe (rdV
            (residual_scan A LU { val := LU.val, nonlinres := nl0 }).val p)) := by
  have key := forLoop_induction
    (fun i (t : ResidualState R) =>
      ScanInv A LU nl0 i (rdI A.row i) (rdI LU.row i) t)
    0 A.num_rows
    (fun i s =>
      forLoop (rdI A.row i) (rdI A.row (i + 1)) (fun j s =>
        forLoop (rdI LU.row i) (rdI LU.row (i + 1)) (fun k s =>
          if rdI LU.col k = rdI A.col j then
            { val := s.val.set k
                (MAGMA_Z_MAKE (MAGMA_Z_REAL (rdV s.val k) - MAGMA_Z_REAL (rdV A.val j)) 0),
              nonlinres := s.nonlinres
                + |MAGMA_Z_REAL (MAGMA_Z_MAKE
                    (MAGMA_Z_REAL (rdV s.val k) - MAGMA_Z_REAL (rdV A.val j)) 0)|
                  * |MAGMA_Z_REAL (MAGMA_Z_MAKE
                    (MAGMA_Z_REAL (rdV s.val k) - MAGMA_Z_REAL (rdV A.val j)) 0)| }
          else s) s) s)
    { val := LU.val, nonlinres := nl0 } (Nat.zero_le _)
    ⟨rfl, ∅, by simp, by simp⟩
    (fun i _ hi t ht => scan_outer_step A LU hLU nl0 i (by omega) (hA i hi) t ht)
  obtain ⟨_, T, hsum, hT⟩ := key
  refine ⟨T, ?_, hsum⟩
  intro p hp
  rw [Finset.mem_range]
  have hle := hLU.le_nnz A.num_rows hrows
  rcases hT p hp with h1 | ⟨h2, _⟩
  · omega
  · have h3 := h2.2
    rcases Nat.lt_or_ge A.num_rows LU.num_rows with h4 | h4
    · have := hLU.le_nnz (A.num_rows + 1) (by omega)
      omega
    · have : rdI LU.row (A.num_rows + 1) = 0 := rdI_default _ _ (by rw [hLU.1]; omega)
      omega



/-- Before the square roots: the accumulated `*nonlinres` of `magma_zicres` is
non-negative and at most the accumulated `*res`. -/
theorem icres_sums (A LU : magma_z_matrix R) (hLU : WellFormed LU)
    (hrows : A.num_rows ≤ LU.num_rows)
    (hA : ∀ i, i < A.num_rows → ∀ j1 j2, InRow A i j1 → InRow A i j2 →
      rdI A.col j1 = rdI A.col j2 → j1 = j2) :
    0 ≤ (residual_scan A LU { val := LU.val, nonlinres := 0 }).nonlinres ∧
    (residual_scan A LU { val := LU.val, nonlinres := 0 }).nonlinres
      ≤ residual_total
          { LU with val := (residual_scan A LU { val := LU.val, nonlinres := 0 }).val } 0 := by
  obtain ⟨T, hT, hsum⟩ := residual_scan_spec A LU hLU hrows hA 0
  have htot := residual_total_eq
    { LU with val := (residual_scan A LU { val := LU.val, nonlinres := 0 }).val }
    hLU.2.1 hLU.2.2.2.1 0
  rw [htot, hsum]
  simp only [zero_add]
  constructor
  · exact Finset.sum_nonneg (fun p _ => sqRe_nonneg _)
  · show _ ≤ (Finset.range (rdI LU.row LU.num_rows)).sum _
    rw [hLU.2.2.1]
    exact Finset.sum_le_sum_of_subset_of_nonneg hT (fun p _ _ => sqRe_nonneg _)

/-! ## The claims about the norms -/

/-- C13: for every pair of CSR matrices `A` and `B` with the same number of rows (well
formed or not), `magma_zfrobenius(A, B)` and `magma_zfrobenius(B, A)` return the same
residual: both add `(Re a - Re b)^2` over the pairs of same-row entries with equal
column index. -/
theorem C13_frobenius_symmetric (sqrt : R → R) (A B : magma_z_matrix R)
    (hrows : A.num_rows = B.num_rows) :
    (magma_zfrobenius sqrt A B).res = (magma_zfrobenius sqrt B A).res := by
  simp only [magma_zfrobenius]
  rw [frobenius_scan_eq_sum A B, frobenius_scan_eq_sum B A, hrows]
  congr 3
  apply List.map_congr_left
  intro i _
  rw [sum_map_sum_comm]
  apply congrArg
  apply List.map_congr_left
  intro k _
  apply congrArg
  apply List.map_congr_left
  intro j _
  exact frobenius_term_comm A B j k

/-- C13 at a row that stores a column twice against a single entry. -/
theorem C13_frobenius_symmetric_witness :
    (dupRow ℚ).num_rows = (single ℚ 4).num_rows ∧
    (magma_zfrobenius Rat.sqrt (dupRow ℚ) (single ℚ 4)).res
      = (magma_zfrobenius Rat.sqrt (single ℚ 4) (dupRow ℚ)).res :=
  ⟨rfl, C13_frobenius_symmetric Rat.sqrt (dupRow ℚ) (single ℚ 4) rfl⟩

/-- C14: for every `A`, `C`, `CT` with product `P = C*CT` such that `A` has at most as
many rows as `P` and no row of `A` stores a column index twice, the two norms returned
by `magma_zicres` satisfy `0 <= nonlinres <= res`, for every square root function that
is non-negative and monotone (the real one is). -/
theorem C14_icres_norms_ordered (sqrt : R → R) (hs0 : ∀ x, 0 ≤ sqrt x)
    (hsm : ∀ x y, x ≤ y → sqrt x ≤ sqrt y) (A C CT : magma_z_matrix R)
    (hrows : A.num_rows ≤ (magma_z_spmm (MAGMA_Z_MAKE 1 0) C CT).num_rows)
    (hA : ∀ i, i < A.num_rows → ∀ j1 j2, InRow A i j1 → InRow A i j2 →
      rdI A.col j1 = rdI A.col j2 → j1 = j2) :
    0 ≤ (magma_zicres sqrt A C CT).nonlinres ∧
    (magma_zicres sqrt A C CT).nonlinres ≤ (magma_zicres sqrt A C CT).res := by
  have hLU : WellFormed (magma_z_spmm (MAGMA_Z_MAKE 1 0) C CT) := wellFormed_csrOfRows _
  have h := icres_sums A _ hLU hrows hA
  exact ⟨hs0 _, hsm _ _ h.2⟩

/-- C14 over the reals at `A = (2)`, `C = CT = (1)`. -/
theorem C14_icres_norms_ordered_witness :
    (single ℝ 2).num_rows
      ≤ (magma_z_spmm (MAGMA_Z_MAKE 1 0) (single ℝ 1) (single ℝ 1)).num_rows ∧
    0 ≤ (magma_zicres Real.sqrt (single ℝ 2) (single ℝ 1) (single ℝ 1)).nonlinres ∧
    (magma_zicres Real.sqrt (single ℝ 2) (single ℝ 1) (single ℝ 1)).nonlinres
      ≤ (magma_zicres Real.sqrt (single ℝ 2) (single ℝ 1) (single ℝ 1)).res :=
  have hrows : (single ℝ 2).num_rows
      ≤ (magma_z_spmm (MAGMA_Z_MAKE 1 0) (single ℝ 1) (single ℝ 1)).num_rows := by
    simp [magma_z_spmm, csrOfRows, single]
  ⟨hrows, C14_icres_norms_ordered Real.sqrt Real.sqrt_nonneg
    (fun _ _ h => Real.sqrt_le_sqrt h) (single ℝ 2) (single ℝ 1) (single ℝ 1) hrows (by
      intro i hi j1 j2 h1 h2 _
      simp only [single] at hi
      have hi0 : i = 0 := by omega
      subst hi0
      simp only [InRow, single, rdI, List.getD_cons_zero, List.getD_cons_succ] at h1 h2
      omega)⟩

end SparseProofs

/-! ## The claims about the batched rank-k update -/

theorem checker_rejects (uplo : magma_uplo_t) (trans : magma_trans_t)
    (n k ldda lddc : List Int) (batchCount : Nat)
    (h : BatchInvalid trans n k ldda lddc batchCount) :
    magma_herk_vbatched_checker uplo trans n k ldda lddc batchCount < 0 := by
  unfold magma_herk_vbatched_checker
  by_cases h1 : uplo ≠ .MagmaUpper ∧ uplo ≠ .MagmaLower
  · rw [if_pos h1]; decide
  rw [if_neg h1]
  by_cases h2 : trans ≠ .MagmaNoTrans ∧ trans ≠ .MagmaConjTrans
  · rw [if_pos h2]; decide
  rw [if_neg h2]
  by_cases h3 : ∃ i, i < batchCount ∧ n.getD i 0 < 0
  · rw [if_pos h3]; decide
  rw [if_neg h3]
  by_cases h4 : ∃ i, i < batchCount ∧ k.getD i 0 < 0
  · rw [if_pos h4]; decide
  rw [if_neg h4]
  by_cases h5 : ∃ i, i < batchCount ∧
      ldda.getD i 0 < max 1 (if trans = .MagmaNoTrans then n.getD i 0 else k.getD i 0)
  · rw [if_pos h5]; decide
  rw [if_neg h5]
  by_cases h6 : ∃ i, i < batchCount ∧ lddc.getD i 0 < max 1 (n.getD i 0)
  · rw [if_pos h6]; decide
  rcases h with h | h | h
  · exact absurd h h3
  · exact absurd h h5
  · exact absurd h h6

/-- C6: when some `n[i]` with `i < batchCount` is negative or some leading dimension is
undersized, `magmablas_zherk_vbatched` and `magmablas_zherk_vbatched_max` report an
argument position to `magma_xerbla` and do nothing else: the arrays `n` and `k`
(sentinel slots included) and every `C_i` are as before, and the trace shows neither
the dimension reduction nor a kernel dispatch. -/
theorem C6_invalid_batch_rejected {S A C : Type} (kernel : HerkKernel S A C)
    (uplo : magma_uplo_t) (trans : magma_trans_t) (s : BatchState C) (alpha : S)
    (dA_array : List A) (ldda : List Int) (beta : S) (lddc : List Int) (batchCount : Nat)
    (max_n max_k : Int) (h : BatchInvalid trans s.n s.k ldda lddc batchCount) :
    (∃ pos, 0 < pos ∧
      magmablas_zherk_vbatched kernel uplo trans s alpha dA_array ldda beta lddc batchCount
        = { s with trace := s.trace ++ [.xerbla "magmablas_zherk_vbatched" pos] }) ∧
    (∃ pos, 0 < pos ∧
      magmablas_zherk_vbatched_max kernel uplo trans s alpha dA_array ldda beta lddc
          batchCount max_n max_k
        = { s with trace := s.trace ++ [.xerbla "magmablas_zherk_vbatched_max" pos] }) := by
  have hc := checker_rejects uplo trans s.n s.k ldda lddc batchCount h
  have hne : magma_herk_vbatched_checker uplo trans s.n s.k ldda lddc batchCount ≠ 0 := by
    omega
  constructor
  · refine ⟨-(magma_herk_vbatched_checker uplo trans s.n s.k ldda lddc batchCount), by omega, ?_⟩
    simp [magmablas_zherk_vbatched, hne]
  · refine ⟨-(magma_herk_vbatched_checker uplo trans s.n s.k ldda lddc batchCount), by omega, ?_⟩
    simp [magmablas_zherk_vbatched_max, hne]

/-- C6 at a batch of two whose second order is `-1`. -/
theorem C6_invalid_batch_rejected_witness :
    BatchInvalid .MagmaNoTrans [2, -1, 0] [2, 3, 0] [2, 3, 0] [2, 3, 0] 2 ∧
    (∃ pos, 0 < pos ∧
      magmablas_zherk_vbatched markKernel .MagmaLower .MagmaNoTrans
          { n := [2, -1, 0], k := [2, 3, 0], dC := [7, 8], trace := [] } 1 [1, 1] [2, 3, 0] 0
          [2, 3, 0] 2
        = { n := [2, -1, 0], k := [2, 3, 0], dC := [7, 8],
            trace := [.xerbla "magmablas_zherk_vbatched" pos] }) ∧
    (∃ pos, 0 < pos ∧
      magmablas_zherk_vbatched_max markKernel .MagmaLower .MagmaNoTrans
          { n := [2, -1, 0], k := [2, 3, 0], dC := [7, 8], trace := [] } 1 [1, 1] [2, 3, 0] 0
          [2, 3, 0] 2 2 3
        = { n := [2, -1, 0], k := [2, 3, 0], dC := [7, 8],
            trace := [.xerbla "magmablas_zherk_vbatched_max" pos] }) :=
  ⟨by decide, C6_invalid_batch_rejected markKernel .MagmaLower .MagmaNoTrans
    { n := [2, -1, 0], k := [2, 3, 0], dC := [7, 8], trace := [] } 1 [1, 1] [2, 3, 0] 0
    [2, 3, 0] 2 2 3 (by decide)⟩

theorem zherk_rejects_example :
    (magmablas_zherk_vbatched markKernel .MagmaLower .MagmaNoTrans
          { n := [2, -1, 0], k := [2, 3, 0], dC := [7, 8], trace := [] } 1 [1, 1] [2, 3, 0] 0
          [2, 3, 0] 2).trace = [.xerbla "magmablas_zherk_vbatched" 3] ∧
    (magmablas_zherk_vbatched markKernel .MagmaLower .MagmaNoTrans
          { n := [2, 3, 0], k := [2, 3, 0], dC := [7, 8], trace := [] } 1 [1, 1] [2, 3, 0] 0
          [2, 3, 0] 2)
      = { n := [2, 3, 3], k := [2, 3, 3], dC := [1, 1],
          trace := [.imax_size_2, .herk_kernel 3 3] } := by
  constructor
  · rfl
  · rfl

/-! ## The three call shapes and the update -/

section KernelProofs

variable {R : Type} [LinearOrderedField R]

theorem take_set_self {α : Type} (l : List α) (m : Nat) (x : α) :
    (l.set m x).take m = l.take m := by
  apply List.ext_getElem?
  intro i
  rw [List.getElem?_take, List.getElem?_take]
  by_cases h : i < m
  · rw [if_pos h, if_pos h, List.getElem?_set]
    rw [if_neg (by omega)]
  · rw [if_neg h, if_neg h]

theorem getD_set_self (l : List Int) (m : Nat) (x : Int) (h : m < l.length) :
    (l.set m x).getD m 0 = x := by
  simp [List.getD_eq_getElem?_getD, List.getElem?_set, h]

theorem getD_of_take_eq (l l2 : List Int) (m i : Nat) (h : l.take m = l2.take m)
    (hi : i < m) : l.getD i 0 = l2.getD i 0 := by
  have h1 : (l.take m)[i]? = (l2.take m)[i]? := by rw [h]
  rw [List.getElem?_take, List.getElem?_take, if_pos hi, if_pos hi] at h1
  rw [List.getD_eq_getElem?_getD, List.getD_eq_getElem?_getD, h1]

theorem foldl_max_ge_init (l : List Int) (a : Int) : a ≤ l.foldl max a := by
  induction l generalizing a with
  | nil => simp
  | cons x xs ih =>
    rw [List.foldl_cons]
    exact le_trans (le_max_left _ _) (ih _)

theorem foldl_max_ge_mem (l : List Int) (a : Int) : ∀ x ∈ l, x ≤ l.foldl max a := by
  induction l generalizing a with
  | nil => intro x hx; simp at hx
  | cons y ys ih =>
    intro x hx
    rw [List.foldl_cons]
    rcases List.mem_cons.1 hx with rfl | h
    · exact le_trans (le_max_right _ _) (foldl_max_ge_init ys _)
    · exact ih _ x h

theorem foldl_max_mem (l : List Int) (a : Int) : l.foldl max a = a ∨ l.foldl max a ∈ l := by
  induction l generalizing a with
  | nil => left; rfl
  | cons y ys ih =>
    rw [List.foldl_cons]
    rcases ih (max a y) with h | h
    · rcases max_choice a y with h2 | h2
      · left; rw [h, h2]
      · right; rw [h, h2]; exact List.mem_cons_self _ _
    · right; exact List.mem_cons_of_mem _ h

/-- For a non-empty batch `batchMax` is the greatest of the first `batchCount` entries. -/
theorem batchMax_spec (xs : List Int) (batchCount : Nat) (h0 : 0 < batchCount)
    (hlen : batchCount ≤ xs.length) :
    (∀ i, i < batchCount → xs.getD i 0 ≤ batchMax xs batchCount) ∧
    (∃ i, i < batchCount ∧ batchMax xs batchCount = xs.getD i 0) := by
  unfold batchMax
  have hget : ∀ i, i < batchCount → xs.getD i 0 ∈ xs.take batchCount := by
    intro i hi
    rw [List.mem_iff_getElem?]
    refine ⟨i, ?_⟩
    rw [List.getElem?_take, if_pos hi, List.getD_eq_getElem?_getD,
      List.getElem?_eq_getElem (by omega)]
    rfl
  constructor
  · intro i hi
    exact foldl_max_ge_mem _ _ _ (hget i hi)
  · rcases foldl_max_mem (xs.take batchCount) (xs.getD 0 0) with h | h
    · exact ⟨0, h0, h⟩
    · rw [List.mem_iff_getElem?] at h
      obtain ⟨i, hi⟩ := h
      rw [List.getElem?_take] at hi
      by_cases hib : i < batchCount
      · rw [if_pos hib] at hi
        have e : xs.getD i 0 = List.foldl max (xs.getD 0 0) (xs.take batchCount) := by
          rw [List.getD_eq_getElem?_getD xs i, hi]
          rfl
        exact ⟨i, hib, e.symm⟩
      · rw [if_neg hib] at hi
        exact absurd hi (by simp)

theorem herk_kernel_spec_reads_batch :
    KernelReadsBatch (herk_kernel_spec : HerkKernel R (DenseMatrix R) (DenseMatrix R)) := by
  intro uplo trans n n2 k k2 alpha dA ldda beta dC lddc bc max_n max_k hn hk
  unfold herk_kernel_spec
  apply List.map_congr_left
  intro i _
  by_cases h : i < bc
  · rw [if_pos h, if_pos h, getD_of_take_eq n n2 bc i hn h, getD_of_take_eq k k2 bc i hk h]
  · rw [if_neg h, if_neg h]

/-- The diagonal of `op(A) * op(A)^H` is real. -/
theorem herk_entry_diag_im (trans : magma_trans_t) (A : DenseMatrix R) (k r : Nat) :
    (herk_entry trans A k r r).im = 0 := by
  unfold herk_entry
  apply foldl_invariant (fun (acc : magmaDoubleComplex R) => acc.im = 0)
  · rfl
  · intro l _ acc hacc
    simp only [MAGMA_Z_ADD, MAGMA_Z_MUL, MAGMA_Z_CNJG, MAGMA_Z_MAKE, hacc]
    ring

theorem herk_kernel_spec_getD (uplo : magma_uplo_t) (trans : magma_trans_t)
    (n k : List Int) (alpha beta : R) (dA_array : List (DenseMatrix R)) (ldda : List Int)
    (dC : List (DenseMatrix R)) (lddc : List Int) (batchCount : Nat) (max_n max_k : Int)
    (i : Nat) (hi : i < batchCount) (hC : i < dC.length) :
    (herk_kernel_spec uplo trans n k alpha dA_array ldda beta dC lddc batchCount
        max_n max_k).getD i (zeroDense R)
      = herk_update uplo trans (n.getD i 0).toNat (k.getD i 0).toNat alpha beta
          (dA_array.getD i (zeroDense R)) (dC.getD i (zeroDense R)) := by
  unfold herk_kernel_spec
  rw [List.getD_eq_getElem?_getD, List.getElem?_map, List.getElem?_range hC]
  simp [hi]

/-- C11: on a batch whose dimension arrays have `batchCount + 1` slots, and for every
kernel that reads these arrays below `batchCount` only: when the checker accepts,
`magmablas_zherk_vbatched` does what `magmablas_zherk_vbatched_nocheck` does;
`magmablas_zherk_vbatched_nocheck` leaves every `C_i` as
`magmablas_zherk_vbatched_max_nocheck` called with the maxima of `n` and `k` over the
batch does; and of `n` and `k` it writes the sentinel slot `batchCount` only, with the
maximum, the entries `0 .. batchCount-1` being as before. -/
theorem C11_call_shapes_agree {S A C : Type} (kernel : HerkKernel S A C)
    (hkernel : KernelReadsBatch kernel)
    (uplo : magma_uplo_t) (trans : magma_trans_t) (s : BatchState C) (alpha : S)
    (dA_array : List A) (ldda : List Int) (beta : S) (lddc : List Int) (batchCount : Nat)
    (hn : s.n.length = batchCount + 1) (hk : s.k.length = batchCount + 1) :
    (magma_herk_vbatched_checker uplo trans s.n s.k ldda lddc batchCount = 0 →
      magmablas_zherk_vbatched kernel uplo trans s alpha dA_array ldda beta lddc batchCount
        = magmablas_zherk_vbatched_nocheck kernel uplo trans s alpha dA_array ldda beta lddc
            batchCount) ∧
    (magmablas_zherk_vbatched_nocheck kernel uplo trans s alpha dA_array ldda beta lddc
        batchCount).dC
      = (magmablas_zherk_vbatched_max_nocheck kernel uplo trans s alpha dA_array ldda beta
          lddc batchCount (batchMax s.n batchCount) (batchMax s.k batchCount)).dC ∧
    (magmablas_zherk_vbatched_nocheck kernel uplo trans s alpha dA_array ldda beta lddc
        batchCount).n = s.n.set batchCount (batchMax s.n batchCount) ∧
    (magmablas_zherk_vbatched_nocheck kernel uplo trans s alpha dA_array ldda beta lddc
        batchCount).k = s.k.set batchCount (batchMax s.k batchCount) ∧
    (∀ i, i < batchCount →
      (magmablas_zherk_vbatched_nocheck kernel uplo trans s alpha dA_array ldda beta lddc
        batchCount).n.getD i 0 = s.n.getD i 0 ∧
      (magmablas_zherk_vbatched_nocheck kernel uplo trans s alpha dA_array ldda beta lddc
        batchCount).k.getD i 0 = s.k.getD i 0) := by
  refine ⟨?_, ?_, rfl, rfl, ?_⟩
  · intro h
    simp [magmablas_zherk_vbatched, magmablas_zherk_vbatched_nocheck, h]
  · simp only [magmablas_zherk_vbatched_nocheck, magmablas_zherk_vbatched_max_nocheck,
      magma_imax_size_2]
    rw [getD_set_self _ _ _ (by omega), getD_set_self _ _ _ (by omega)]
    exact hkernel _ _ _ _ _ _ _ _ _ _ _ _ _ _ _ (take_set_self _ _ _) (take_set_self _ _ _)
  · intro i hi
    simp only [magmablas_zherk_vbatched_nocheck, magmablas_zherk_vbatched_max_nocheck,
      magma_imax_size_2]
    constructor
    · exact getD_of_take_eq _ _ batchCount i (take_set_self _ _ _) hi
    · exact getD_of_take_eq _ _ batchCount i (take_set_self _ _ _) hi

/-- C11 at the batch of orders 2 and 3 with the update modelled from the spec. -/
theorem C11_call_shapes_agree_witness :
    KernelReadsBatch (herk_kernel_spec : HerkKernel ℚ (DenseMatrix ℚ) (DenseMatrix ℚ)) ∧
    (scenarioBatch ℚ).n.length = 2 + 1 ∧ (scenarioBatch ℚ).k.length = 2 + 1 ∧
    magma_herk_vbatched_checker .MagmaLower .MagmaNoTrans (scenarioBatch ℚ).n
      (scenarioBatch ℚ).k [2, 3, 0] [2, 3, 0] 2 = 0 ∧
    magmablas_zherk_vbatched herk_kernel_spec .MagmaLower .MagmaNoTrans (scenarioBatch ℚ) 1
        [identityDense ℚ, identityDense ℚ] [2, 3, 0] 0 [2, 3, 0] 2
      = magmablas_zherk_vbatched_nocheck herk_kernel_spec .MagmaLower .MagmaNoTrans
          (scenarioBatch ℚ) 1 [identityDense ℚ, identityDense ℚ] [2, 3, 0] 0 [2, 3, 0] 2 ∧
    (magmablas_zherk_vbatched_nocheck herk_kernel_spec .MagmaLower .MagmaNoTrans
        (scenarioBatch ℚ) 1 [identityDense ℚ, identityDense ℚ] [2, 3, 0] 0 [2, 3, 0] 2).dC
      = (magmablas_zherk_vbatched_max_nocheck herk_kernel_spec .MagmaLower .MagmaNoTrans
          (scenarioBatch ℚ) 1 [identityDense ℚ, identityDense ℚ] [2, 3, 0] 0 [2, 3, 0] 2
          (batchMax (scenarioBatch ℚ).n 2) (batchMax (scenarioBatch ℚ).k 2)).dC ∧
    (magmablas_zherk_vbatched_nocheck herk_kernel_spec .MagmaLower .MagmaNoTrans
        (scenarioBatch ℚ) 1 [identityDense ℚ, identityDense ℚ] [2, 3, 0] 0 [2, 3, 0] 2).n
      = [2, 3, 3] :=
  have h := C11_call_shapes_agree herk_kernel_spec herk_kernel_spec_reads_batch .MagmaLower
    .MagmaNoTrans (scenarioBatch ℚ) 1 [identityDense ℚ, identityDense ℚ] [2, 3, 0] 0
    [2, 3, 0] 2 (by decide) (by decide)
  ⟨herk_kernel_spec_reads_batch, by decide, by decide, by decide, h.1 (by decide), h.2.1,
    h.2.2.1.trans (by decide)⟩

/-- C12: on a batch the checker accepts, `magmablas_zherk_vbatched` with `beta = 0`
leaves in every `C_i`, at the entries of the triangular half named by `uplo`,
`alpha * op(A_i) * op(A_i)^H` whatever `C_i` held before, the imaginary part of the
diagonal entries being zero, and leaves the entries outside that half as they were. -/
theorem C12_herk_beta_zero (uplo : magma_uplo_t) (trans : magma_trans_t)
    (s : BatchState (DenseMatrix R)) (alpha : R) (dA_array : List (DenseMatrix R))
    (ldda lddc : List Int) (batchCount : Nat)
    (hvalid : magma_herk_vbatched_checker uplo trans s.n s.k ldda lddc batchCount = 0)
    (hC : batchCount ≤ s.dC.length) (i : Nat) (hi : i < batchCount) (r c : Nat) :
    (InTriangle uplo (s.n.getD i 0).toNat r c →
      (magmablas_zherk_vbatched herk_kernel_spec uplo trans s alpha dA_array ldda 0 lddc
          batchCount).dC.getD i (zeroDense R) r c
        = MAGMA_Z_SCALE alpha (herk_entry trans (dA_array.getD i (zeroDense R))
            (s.k.getD i 0).toNat r c)) ∧
    (InTriangle uplo (s.n.getD i 0).toNat r r →
      ((magmablas_zherk_vbatched herk_kernel_spec uplo trans s alpha dA_array ldda 0 lddc
          batchCount).dC.getD i (zeroDense R) r r).im = 0) ∧
    (¬ InTriangle uplo (s.n.getD i 0).toNat r c →
      (magmablas_zherk_vbatched herk_kernel_spec uplo trans s alpha dA_array ldda 0 lddc
          batchCount).dC.getD i (zeroDense R) r c
        = s.dC.getD i (zeroDense R) r c) := by
  have hout : (magmablas_zherk_vbatched herk_kernel_spec uplo trans s alpha dA_array ldda 0
      lddc batchCount).dC.getD i (zeroDense R)
      = herk_update uplo trans (s.n.getD i 0).toNat (s.k.getD i 0).toNat alpha 0
          (dA_array.getD i (zeroDense R)) (s.dC.getD i (zeroDense R)) := by
    simp only [magmablas_zherk_vbatched, hvalid, ne_eq, not_true_eq_false, if_false,
      magmablas_zherk_vbatched_max_nocheck, magma_imax_size_2]
    rw [herk_kernel_spec_getD _ _ _ _ _ _ _ _ _ _ _ _ _ i hi (by omega),
      getD_of_take_eq _ _ batchCount i (take_set_self s.n batchCount _) hi,
      getD_of_take_eq _ _ batchCount i (take_set_self s.k batchCount _) hi]
  have hentry : ∀ r c, InTriangle uplo (s.n.getD i 0).toNat r c →
      herk_update uplo trans (s.n.getD i 0).toNat (s.k.getD i 0).toNat alpha 0
          (dA_array.getD i (zeroDense R)) (s.dC.getD i (zeroDense R)) r c
        = MAGMA_Z_SCALE alpha (herk_entry trans (dA_array.getD i (zeroDense R))
            (s.k.getD i 0).toNat r c) := by
    intro r c h
    unfold herk_update
    rw [if_pos h]
    by_cases hrc : r = c
    · subst hrc
      simp [MAGMA_Z_ADD, MAGMA_Z_SCALE, MAGMA_Z_MAKE, herk_entry_diag_im]
    · simp [hrc, MAGMA_Z_ADD, MAGMA_Z_SCALE, MAGMA_Z_MAKE]
  rw [hout]
  refine ⟨hentry r c, ?_, ?_⟩
  · intro h
    rw [hentry r r h]
    simp [MAGMA_Z_SCALE, MAGMA_Z_MAKE, herk_entry_diag_im]
  · intro h
    unfold herk_update
    rw [if_neg h]

/-- C12 at the scenario of the spec: orders 2 and 3, identity `A_i`, `alpha = 1`,
`beta = 0`, lower triangle, no transpose; the second `C_i` gets `0` at (2,1) and `1` at
(2,2) and keeps its entry at (1,2). -/
theorem C12_herk_beta_zero_witness :
    magma_herk_vbatched_checker .MagmaLower .MagmaNoTrans (scenarioBatch ℚ).n
      (scenarioBatch ℚ).k [2, 3, 0] [2, 3, 0] 2 = 0 ∧
    2 ≤ (scenarioBatch ℚ).dC.length ∧
    InTriangle .MagmaLower ((scenarioBatch ℚ).n.getD 1 0).toNat 2 1 ∧
    InTriangle .MagmaLower ((scenarioBatch ℚ).n.getD 1 0).toNat 2 2 ∧
    (magmablas_zherk_vbatched herk_kernel_spec .MagmaLower .MagmaNoTrans (scenarioBatch ℚ) 1
        [identityDense ℚ, identityDense ℚ] [2, 3, 0] 0 [2, 3, 0] 2).dC.getD 1 (zeroDense ℚ) 2 1
      = MAGMA_Z_MAKE 0 0 ∧
    (magmablas_zherk_vbatched herk_kernel_spec .MagmaLower .MagmaNoTrans (scenarioBatch ℚ) 1
        [identityDense ℚ, identityDense ℚ] [2, 3, 0] 0 [2, 3, 0] 2).dC.getD 1 (zeroDense ℚ) 2 2
      = MAGMA_Z_MAKE 1 0 ∧
    (magmablas_zherk_vbatched herk_kernel_spec .MagmaLower .MagmaNoTrans (scenarioBatch ℚ) 1
        [identityDense ℚ, identityDense ℚ] [2, 3, 0] 0 [2, 3, 0] 2).dC.getD 1 (zeroDense ℚ) 1 2
      = MAGMA_Z_MAKE 5 7 := by
  have hv : magma_herk_vbatched_checker .MagmaLower .MagmaNoTrans (scenarioBatch ℚ).n
      (scenarioBatch ℚ).k [2, 3, 0] [2, 3, 0] 2 = 0 := by decide
  have hC : 2 ≤ (scenarioBatch ℚ).dC.length := by decide
  have t21 : InTriangle .MagmaLower ((scenarioBatch ℚ).n.getD 1 0).toNat 2 1 := by decide
  have t22 : InTriangle .MagmaLower ((scenarioBatch ℚ).n.getD 1 0).toNat 2 2 := by decide
  have t12 : ¬ InTriangle .MagmaLower ((scenarioBatch ℚ).n.getD 1 0).toNat 1 2 := by decide
  have h21 := (C12_herk_beta_zero .MagmaLower .MagmaNoTrans (scenarioBatch ℚ) 1
    [identityDense ℚ, identityDense ℚ] [2, 3, 0] [2, 3, 0] 2 hv hC 1 (by decide) 2 1).1 t21
  have h22 := (C12_herk_beta_zero .MagmaLower .MagmaNoTrans (scenarioBatch ℚ) 1
    [identityDense ℚ, identityDense ℚ] [2, 3, 0] [2, 3, 0] 2 hv hC 1 (by decide) 2 2).1 t22
  have h12 := (C12_herk_beta_zero .MagmaLower .MagmaNoTrans (scenarioBatch ℚ) 1
    [identityDense ℚ, identityDense ℚ] [2, 3, 0] [2, 3, 0] 2 hv hC 1 (by decide) 1 2).2.2 t12
  refine ⟨hv, hC, t21, t22, ?_, ?_, ?_⟩
  · rw [h21]
    simp [scenarioBatch, herk_entry, herk_op, identityDense, MAGMA_Z_SCALE, MAGMA_Z_ADD,
      MAGMA_Z_MUL, MAGMA_Z_CNJG, MAGMA_Z_MAKE, List.range, List.range.loop]
  · rw [h22]
    simp [scenarioBatch, herk_entry, herk_op, identityDense, MAGMA_Z_SCALE, MAGMA_Z_ADD,
      MAGMA_Z_MUL, MAGMA_Z_CNJG, MAGMA_Z_MAKE, List.range, List.range.loop]
  · rw [h12]
    simp [scenarioBatch]

end KernelProofs

end Magma
